import Mathlib

/-!
# Buffer pool manager and LRU replacer

A shallow embedding of `src/buffer/lru_replacer.cpp` and
`src/buffer/buffer_pool_manager.cpp`, followed by theorems about them.

Conventions of the embedding:

* a `Page *` that points into `pages_` is the index of the frame; a `Page *`
  variable that may be `nullptr` is an `Option Nat`;
* `std::list` is `List`, front of the list first;
* the `std::unordered_map<T, std::list<T>::iterator> map_` of the replacer is
  the list of its keys: `Insert` is the only writer of the map and it stores,
  under `value`, the iterator of the node it has just pushed for `value`, so
  the node an entry points to is the node of `queue_` holding its key;
* the latch is not part of the state: every operation is one atomic step;
  `latchCalls` lists the calls each member function makes on `latch_`, and
  `deleteLookup`, `deleteMutate` are the two parts of `DeletePage` between
  which another operation can run.
-/

namespace cmudb

/-! ## LRUReplacer -/

/-- State of `LRUReplacer<T>`: the recency queue and the keys of the index. -/
structure LRUReplacer (T : Type) where
  queue_ : List T
  map_ : List T
deriving DecidableEq, Repr

namespace LRUReplacer

variable {T : Type} [DecidableEq T]

/-- The replacer right after its constructor ran. -/
def empty : LRUReplacer T := { queue_ := [], map_ := [] }

/-- `unordered_map::insert`: nothing happens when the key is already there. -/
def mapInsert (m : List T) (value : T) : List T :=
  if value ∈ m then m else m ++ [value]

/-- `LRUReplacer<T>::Insert` (lru_replacer.cpp, 17-29). -/
def Insert (s : LRUReplacer T) (value : T) : LRUReplacer T :=
  let s1 : LRUReplacer T :=
    if value ∈ s.map_ then
      -- queue_.erase(queue_iter); map_.erase(map_iter);
      { queue_ := s.queue_.erase value, map_ := s.map_.erase value }
    else s
  -- queue_.push_back(value); map_.insert({value, --queue_.end()});
  { queue_ := s1.queue_ ++ [value], map_ := mapInsert s1.map_ value }

/-- `LRUReplacer<T>::Victim` (lru_replacer.cpp, 34-45). The reference argument
`value` is threaded through: the result is the returned flag, the content of
the caller's variable afterwards and the new state. The caller's variable is
an `Option T` so that a variable holding no key yet (a null `Page *`) can be
passed. `front()` of an empty `queue_` with a non-empty `map_` is undefined in
C++; the two containers always have the same size (`Wf`), and the model leaves
everything unchanged there. -/
def Victim (s : LRUReplacer T) (value : Option T) : Bool × Option T × LRUReplacer T :=
  if s.map_.length = 0 then
    (false, value, s)
  else
    match s.queue_ with
    | [] => (false, value, s)
    | v :: rest => (true, some v, { queue_ := rest, map_ := s.map_.erase v })

/-- `LRUReplacer<T>::Erase` (lru_replacer.cpp, 51-63). -/
def Erase (s : LRUReplacer T) (value : T) : Bool × LRUReplacer T :=
  if value ∈ s.map_ then
    (true, { queue_ := s.queue_.erase value, map_ := s.map_.erase value })
  else
    (false, s)

/-- `LRUReplacer<T>::Size` (lru_replacer.cpp, 65). -/
def Size (s : LRUReplacer T) : Nat := s.map_.length

/-- Representation invariant of the two containers: the index has one entry
per node of the queue, and no key has two nodes. -/
def Wf (s : LRUReplacer T) : Prop :=
  s.queue_.Nodup ∧ s.map_.Perm s.queue_

/-- Operations of the replacer, for histories. -/
inductive Op (T : Type) where
  | insert (k : T)
  | victim
  | erase (k : T)
deriving DecidableEq, Repr

/-- What a call did to the tracked set: `ins k` for an `Insert(k)`, `rem k` for
a key taken out by `Victim` or `Erase`, `nop` for a call that removed nothing. -/
inductive Ev (T : Type) where
  | ins (k : T)
  | rem (k : T)
  | nop
deriving DecidableEq, Repr

/-- One call on the replacer; the history is kept newest first. -/
def exec (c : LRUReplacer T × List (Ev T)) : Op T → LRUReplacer T × List (Ev T)
  | .insert k => (c.1.Insert k, Ev.ins k :: c.2)
  | .victim =>
    match c.1.Victim none with
    | (true, some v, s) => (s, Ev.rem v :: c.2)
    | (_, _, s) => (s, Ev.nop :: c.2)
  | .erase k =>
    match c.1.Erase k with
    | (true, s) => (s, Ev.rem k :: c.2)
    | (false, s) => (s, Ev.nop :: c.2)

/-- Run a sequence of calls, oldest first, on a fresh replacer. -/
def run (ops : List (Op T)) : LRUReplacer T × List (Ev T) :=
  ops.foldl exec (empty, [])

/-- Time of the latest `Insert(k)` in a history (newest first) when `k` has
not been taken out since; the time of an event is the number of events before
it. -/
def lastIns : List (Ev T) → T → Option Nat
  | [], _ => none
  | Ev.ins x :: h, k => if x = k then some h.length else lastIns h k
  | Ev.rem x :: h, k => if x = k then none else lastIns h k
  | Ev.nop :: h, k => lastIns h k

/-- What links a replacer to its history: the queue holds exactly the keys with
a live latest `Insert`, in increasing order of that time. -/
structure Hist (s : LRUReplacer T) (h : List (Ev T)) : Prop where
  wf : Wf s
  tracked : ∀ x, x ∈ s.queue_ ↔ (lastIns h x).isSome
  sorted : s.queue_.Pairwise
    (fun x y => ∀ i j, lastIns h x = some i → lastIns h y = some j → i < j)
  bound : ∀ x i, lastIns h x = some i → i < h.length

/-- The states a replacer object can be in. -/
inductive Reachable : LRUReplacer T → Prop where
  | init : Reachable empty
  | insert {s} (k : T) : Reachable s → Reachable (s.Insert k)
  | victim {s} (v : Option T) : Reachable s → Reachable (s.Victim v).2.2
  | erase {s} (k : T) : Reachable s → Reachable (s.Erase k).2

end LRUReplacer

/-! ## Collaborators of the buffer pool manager

The headers of `Page`, `ExtendibleHash` and `DiskManager` are not part of the
sources at hand; what the manager needs of them is modelled here. -/

/-- Page identifiers (`page_id_t`). -/
abbrev page_id_t := Int

/-- The sentinel carried by a frame that holds no page. -/
def INVALID_PAGE_ID : page_id_t := -1

/-- Size of a page in bytes (`b_plus_tree_page_test.cpp`: "For PAGE_SIZE = 512"). -/
def PAGE_SIZE : Nat := 512

/-- A page worth of zero bytes. -/
def zeroData : List Nat := List.replicate PAGE_SIZE 0

/-- Modelled from the spec: the `Page` class (header absent). A frame is a byte
buffer plus `page_id`, `pin_count` (a non-negative integer) and `is_dirty`. -/
structure Page where
  data_ : List Nat
  page_id_ : page_id_t
  pin_count_ : Nat
  is_dirty_ : Bool
deriving DecidableEq, Repr

/-- Modelled from the spec: the `Page` constructor (header absent). A frame
never yet assigned is free: invalid page id, no pin, clean, zeroed bytes. -/
def Page.fresh : Page :=
  { data_ := zeroData, page_id_ := INVALID_PAGE_ID, pin_count_ := 0, is_dirty_ := false }

instance : Inhabited Page := ⟨Page.fresh⟩

/-- Modelled from the spec: `Page::ResetMemory` (header absent), which
zero-initialises the bytes of the frame. -/
def Page.ResetMemory (p : Page) : Page := { p with data_ := zeroData }

/-- Modelled from the spec: the page table `ExtendibleHash<page_id_t, Page *>`
(source absent), a map from page id to frame with insert, lookup and remove;
kept as an association list with at most one entry per key. -/
abbrev PageTable := List (page_id_t × Nat)

namespace PageTable

/-- Modelled from the spec: page-table lookup (source absent): the frame of
`key`, or a miss. -/
def Find : PageTable → page_id_t → Option Nat
  | [], _ => none
  | (k, v) :: t, key => if k = key then some v else Find t key

/-- Modelled from the spec: page-table remove (source absent): drops the
entry of `key` and reports whether there was one. -/
def Remove (t : PageTable) (key : page_id_t) : Bool × PageTable :=
  ((Find t key).isSome, t.filter (fun e => e.1 ≠ key))

/-- Modelled from the spec: page-table insert (source absent): afterwards
`key` maps to `v`, other keys are untouched. -/
def Insert (t : PageTable) (key : page_id_t) (v : Nat) : PageTable :=
  (key, v) :: t.filter (fun e => e.1 ≠ key)

end PageTable

/-- Calls received by durable storage. -/
inductive DiskEvent where
  | read (page_id : page_id_t)
  | write (page_id : page_id_t) (data : List Nat)
  | allocate (page_id : page_id_t)
  | deallocate (page_id : page_id_t)
deriving DecidableEq, Repr

/-- Modelled from the spec: durable storage (`DiskManager`, source absent):
the bytes it holds per page id and the log of the calls it received, oldest
first. -/
structure DiskManager where
  store : List (page_id_t × List Nat)
  log : List DiskEvent
deriving DecidableEq, Repr

namespace DiskManager

/-- Bytes durable storage holds for a page id; a page never written is zero. -/
def content (d : DiskManager) (page_id : page_id_t) : List Nat :=
  match d.store.find? (fun e => e.1 = page_id) with
  | some e => e.2
  | none => zeroData

/-- Modelled from the spec: `read(page_id, out_buffer)` (source absent). -/
def ReadPage (d : DiskManager) (page_id : page_id_t) : List Nat × DiskManager :=
  (d.content page_id, { d with log := d.log ++ [DiskEvent.read page_id] })

/-- Modelled from the spec: `write(page_id, buffer)` (source absent). -/
def WritePage (d : DiskManager) (page_id : page_id_t) (data : List Nat) : DiskManager :=
  { store := (page_id, data) :: d.store.filter (fun e => e.1 ≠ page_id),
    log := d.log ++ [DiskEvent.write page_id data] }

/-- Modelled from the spec: `allocate_id() -> page_id` (source absent). Which
id comes back is up to durable storage; it is an input of the model. -/
def AllocatePage (d : DiskManager) (fresh : page_id_t) : page_id_t × DiskManager :=
  (fresh, { d with log := d.log ++ [DiskEvent.allocate fresh] })

/-- Modelled from the spec: `deallocate_id(page_id)` (source absent). -/
def DeallocatePage (d : DiskManager) (page_id : page_id_t) : DiskManager :=
  { d with log := d.log ++ [DiskEvent.deallocate page_id] }

/-- Durable storage that holds nothing yet and has received no call. -/
def blank : DiskManager := { store := [], log := [] }

end DiskManager

/-! ## BufferPoolManager -/

/-- State of the manager: frame pool, page table, replacer, free list and
durable storage. -/
structure BufferPoolManager where
  pool_size_ : Nat
  pages_ : List Page
  page_table_ : PageTable
  replacer_ : LRUReplacer Nat
  free_list_ : List Nat
  disk_manager_ : DiskManager
deriving DecidableEq, Repr

namespace BufferPoolManager

/-- The constructor (buffer_pool_manager.cpp, 11-26): every frame is put into
the free list, in index order. -/
def new (pool_size : Nat) (disk_manager : DiskManager) : BufferPoolManager :=
  { pool_size_ := pool_size,
    pages_ := List.replicate pool_size Page.fresh,
    page_table_ := [],
    replacer_ := LRUReplacer.empty,
    free_list_ := List.range pool_size,
    disk_manager_ := disk_manager }

/-- Dereference of a frame pointer. -/
def page (s : BufferPoolManager) (f : Nat) : Page := s.pages_.getD f Page.fresh

/-- Store through a frame pointer. -/
def setPage (s : BufferPoolManager) (f : Nat) (p : Page) : BufferPoolManager :=
  { s with pages_ := s.pages_.set f p }

/-- `BufferPoolManager::getFreePage` (buffer_pool_manager.cpp, 197-214). -/
def getFreePage (s : BufferPoolManager) : Option Nat × BufferPoolManager :=
  if s.free_list_.length > 0 then
    match s.free_list_ with
    | f :: rest => (some f, { s with free_list_ := rest })
    | [] => (none, s)
  else
    match s.replacer_.Victim none with
    | (true, some f, r) =>
      let s1 := { s with replacer_ := r }
      if (s1.page f).is_dirty_ then
        (some f, { s1 with disk_manager_ :=
          s1.disk_manager_.WritePage (s1.page f).page_id_ (s1.page f).data_ })
      else
        (some f, s1)
    | (_, ret_page, r) => (ret_page, { s with replacer_ := r })

/-- `BufferPoolManager::initAndPinPage` (buffer_pool_manager.cpp, 216-225). -/
def initAndPinPage (s : BufferPoolManager) (page : Option Nat) (new_page_id : page_id_t) :
    BufferPoolManager :=
  match page with
  | none => s
  | some f =>
    let t1 := (PageTable.Remove s.page_table_ (s.page f).page_id_).2
    let pg := (s.page f).ResetMemory
    let pg := { pg with page_id_ := new_page_id, pin_count_ := 1, is_dirty_ := false }
    { s with pages_ := s.pages_.set f pg, page_table_ := PageTable.Insert t1 new_page_id f }

/-- `BufferPoolManager::FetchPage` (buffer_pool_manager.cpp, 50-68). -/
def FetchPage (s : BufferPoolManager) (page_id : page_id_t) : Option Nat × BufferPoolManager :=
  match PageTable.Find s.page_table_ page_id with
  | some f =>
    (some f, s.setPage f { s.page f with pin_count_ := (s.page f).pin_count_ + 1 })
  | none =>
    match s.getFreePage with
    | (some f, s1) =>
      let s2 := s1.initAndPinPage (some f) page_id
      let r := s2.disk_manager_.ReadPage page_id
      (some f, { s2 with pages_ := s2.pages_.set f { s2.page f with data_ := r.1 },
                         disk_manager_ := r.2 })
    | (none, s1) => (none, s1)

/-- `BufferPoolManager::UnpinPage` (buffer_pool_manager.cpp, 76-102). -/
def UnpinPage (s : BufferPoolManager) (page_id : page_id_t) (is_dirty : Bool) :
    Bool × BufferPoolManager :=
  match PageTable.Find s.page_table_ page_id with
  | some f =>
    let r : Bool × BufferPoolManager :=
      if (s.page f).pin_count_ > 0 then
        let s1 := s.setPage f { s.page f with pin_count_ := (s.page f).pin_count_ - 1 }
        if (s1.page f).pin_count_ = 0 then
          (true, { s1 with replacer_ := s1.replacer_.Insert f })
        else
          (true, s1)
      else
        (false, s)
    if is_dirty then
      (r.1, r.2.setPage f { r.2.page f with is_dirty_ := true })
    else
      r
  | none => (false, s)

/-- `BufferPoolManager::FlushPage` (buffer_pool_manager.cpp, 110-126). -/
def FlushPage (s : BufferPoolManager) (page_id : page_id_t) : Bool × BufferPoolManager :=
  match PageTable.Find s.page_table_ page_id with
  | some f =>
    let d := s.disk_manager_.WritePage page_id (s.page f).data_
    (true, { s with pages_ := s.pages_.set f { s.page f with is_dirty_ := false },
                    disk_manager_ := d })
  | none => (false, s)

/-- `BufferPoolManager::DeletePage` (buffer_pool_manager.cpp, 136-172). -/
def DeletePage (s : BufferPoolManager) (page_id : page_id_t) : Bool × BufferPoolManager :=
  match PageTable.Find s.page_table_ page_id with
  | some f =>
    if (s.page f).pin_count_ > 0 then
      (false, s)
    else
      match PageTable.Remove s.page_table_ page_id with
      | (false, t1) => (false, { s with page_table_ := t1 })
      | (true, t1) =>
        match s.replacer_.Erase f with
        | (false, r1) => (false, { s with page_table_ := t1, replacer_ := r1 })
        | (true, r1) =>
          let pg := (s.page f).ResetMemory
          let pg := { pg with page_id_ := INVALID_PAGE_ID, pin_count_ := 0, is_dirty_ := false }
          (true, { s with pages_ := s.pages_.set f pg,
                          page_table_ := t1,
                          replacer_ := r1,
                          free_list_ := s.free_list_ ++ [f],
                          disk_manager_ := s.disk_manager_.DeallocatePage page_id })
  | none => (false, s)

/-- `BufferPoolManager::NewPage` (buffer_pool_manager.cpp, 182-194). `fresh` is
the id `AllocatePage` hands out; the result is the returned pointer, the value
left in the reference argument `page_id`, and the new state. -/
def NewPage (s : BufferPoolManager) (fresh : page_id_t) :
    Option Nat × page_id_t × BufferPoolManager :=
  let a := s.disk_manager_.AllocatePage fresh
  let s0 := { s with disk_manager_ := a.2 }
  match s0.getFreePage with
  | (some f, s1) => (some f, a.1, s1.initAndPinPage (some f) a.1)
  | (none, s1) => (none, a.1, s1)

/-- Calls of the public interface. -/
inductive Call where
  | fetch (page_id : page_id_t)
  | unpin (page_id : page_id_t) (is_dirty : Bool)
  | flush (page_id : page_id_t)
  | delete (page_id : page_id_t)
  | allocate (fresh : page_id_t)
deriving DecidableEq, Repr

/-- State after one call. -/
def step (s : BufferPoolManager) : Call → BufferPoolManager
  | .fetch p => (s.FetchPage p).2
  | .unpin p d => (s.UnpinPage p d).2
  | .flush p => (s.FlushPage p).2
  | .delete p => (s.DeletePage p).2
  | .allocate p => (s.NewPage p).2.2

/-- A call is admitted in a state when its page id is not the invalid sentinel
and, for `NewPage`, the id handed out by `AllocatePage` is not resident. -/
def Call.ok (s : BufferPoolManager) : Call → Prop
  | .fetch p => p ≠ INVALID_PAGE_ID
  | .unpin p _ => p ≠ INVALID_PAGE_ID
  | .flush p => p ≠ INVALID_PAGE_ID
  | .delete p => p ≠ INVALID_PAGE_ID
  | .allocate p => p ≠ INVALID_PAGE_ID ∧ PageTable.Find s.page_table_ p = none

instance (s : BufferPoolManager) (c : Call) : Decidable (c.ok s) := by
  cases c <;> unfold Call.ok <;> infer_instance

/-- States reachable from a freshly constructed manager by admitted calls. -/
inductive Reachable : BufferPoolManager → Prop where
  | init (pool_size : Nat) (d : DiskManager) : Reachable (new pool_size d)
  | step {s : BufferPoolManager} (c : Call) : Reachable s → c.ok s → Reachable (s.step c)

/-- The state `getFreePage` leaves when it takes frame `f` from the replacer. -/
def afterVictim (s : BufferPoolManager) (f : Nat) : BufferPoolManager :=
  { s with
    replacer_ := { queue_ := s.replacer_.queue_.erase f, map_ := s.replacer_.map_.erase f },
    disk_manager_ :=
      if (s.page f).is_dirty_ then
        s.disk_manager_.WritePage (s.page f).page_id_ (s.page f).data_
      else s.disk_manager_ }

/-- The state a successful `DeletePage` of page `p` in frame `f` leaves. -/
def afterDelete (s : BufferPoolManager) (p : page_id_t) (f : Nat) : BufferPoolManager :=
  { s with
    pages_ := s.pages_.set f
      { data_ := zeroData, page_id_ := INVALID_PAGE_ID, pin_count_ := 0, is_dirty_ := false },
    page_table_ := s.page_table_.filter (fun e => e.1 ≠ p),
    replacer_ := { queue_ := s.replacer_.queue_.erase f, map_ := s.replacer_.map_.erase f },
    free_list_ := s.free_list_ ++ [f],
    disk_manager_ := s.disk_manager_.DeallocatePage p }

/-- The smallest history after which a pinned frame sits in the replacer: on a
pool of one frame, `FetchPage(1)`, `UnpinPage(1, false)`, `FetchPage(1)`. -/
def pinnedInReplacer : BufferPoolManager :=
  (((new 1 DiskManager.blank).step (Call.fetch 1)).step (Call.unpin 1 false)).step (Call.fetch 1)

/-- State after `n` calls `FetchPage(p)` in a row. -/
def fetches (s : BufferPoolManager) (p : page_id_t) (n : Nat) : BufferPoolManager :=
  (fun t => (t.FetchPage p).2)^[n] s

/-- State after `n` calls `UnpinPage(p, false)` in a row. -/
def unpins (s : BufferPoolManager) (p : page_id_t) (n : Nat) : BufferPoolManager :=
  (fun t => (t.UnpinPage p false).2)^[n] s

/-- Bookkeeping invariant of the manager. It says nothing about frames that sit
in the replacer while pinned: the code lets that happen. -/
structure Inv (s : BufferPoolManager) : Prop where
  len : s.pages_.length = s.pool_size_
  wf : s.replacer_.Wf
  free_lt : ∀ f ∈ s.free_list_, f < s.pages_.length
  free_nodup : s.free_list_.Nodup
  free_invalid : ∀ f ∈ s.free_list_, (s.page f).page_id_ = INVALID_PAGE_ID
  table_keys : (s.page_table_.map Prod.fst).Nodup
  table_lt : ∀ p f, PageTable.Find s.page_table_ p = some f → f < s.pages_.length
  table_id : ∀ p f, PageTable.Find s.page_table_ p = some f → (s.page f).page_id_ = p
  table_valid : PageTable.Find s.page_table_ INVALID_PAGE_ID = none
  repl_res : ∀ f ∈ s.replacer_.queue_,
    PageTable.Find s.page_table_ (s.page f).page_id_ = some f
  pin0 : ∀ p f, PageTable.Find s.page_table_ p = some f → (s.page f).pin_count_ = 0 →
    f ∈ s.replacer_.queue_
  cover : ∀ f, f < s.pages_.length →
    f ∈ s.free_list_ ∨ PageTable.Find s.page_table_ (s.page f).page_id_ = some f

/-- The invariant between `getFreePage` handing out frame `f` and
`initAndPinPage` installing a page in it: `f` is in neither list, and may still
have its old entry in the page table. -/
structure Pre (s : BufferPoolManager) (f : Nat) : Prop where
  len : s.pages_.length = s.pool_size_
  wf : s.replacer_.Wf
  free_lt : ∀ g ∈ s.free_list_, g < s.pages_.length
  free_nodup : s.free_list_.Nodup
  free_invalid : ∀ g ∈ s.free_list_, (s.page g).page_id_ = INVALID_PAGE_ID
  table_keys : (s.page_table_.map Prod.fst).Nodup
  table_lt : ∀ p g, PageTable.Find s.page_table_ p = some g → g < s.pages_.length
  table_id : ∀ p g, PageTable.Find s.page_table_ p = some g → (s.page g).page_id_ = p
  table_valid : PageTable.Find s.page_table_ INVALID_PAGE_ID = none
  repl_res : ∀ g ∈ s.replacer_.queue_,
    PageTable.Find s.page_table_ (s.page g).page_id_ = some g
  pin0 : ∀ p g, PageTable.Find s.page_table_ p = some g → g ≠ f →
    (s.page g).pin_count_ = 0 → g ∈ s.replacer_.queue_
  cover : ∀ g, g < s.pages_.length → g ≠ f →
    g ∈ s.free_list_ ∨ PageTable.Find s.page_table_ (s.page g).page_id_ = some g
  f_lt : f < s.pages_.length
  f_free : f ∉ s.free_list_
  f_repl : f ∉ s.replacer_.queue_
  f_state : (s.page f).page_id_ = INVALID_PAGE_ID ∨
    PageTable.Find s.page_table_ (s.page f).page_id_ = some f

/-- Page `p` sits in frame `f` with pin count `j`, bytes `data` and durable
storage `d`, in a state satisfying the invariant. -/
structure Held (p : page_id_t) (f j : Nat) (data : List Nat) (d : DiskManager)
    (t : BufferPoolManager) : Prop where
  inv : Inv t
  res : PageTable.Find t.page_table_ p = some f
  pin : (t.page f).pin_count_ = j
  bytes : (t.page f).data_ = data
  disk : t.disk_manager_ = d

/-- State after a sequence of calls, oldest first. -/
def steps (s : BufferPoolManager) (cs : List Call) : BufferPoolManager :=
  cs.foldl step s

/-- Along the calls `cs` made from `s`: every call is admitted, none of them is
`FlushPage(p)`, and `p` is resident after each of them. -/
def keepsResident (p : page_id_t) : BufferPoolManager → List Call → Prop
  | _, [] => True
  | s, c :: cs =>
    c.ok s ∧ c ≠ Call.flush p ∧ (PageTable.Find (s.step c).page_table_ p).isSome ∧
      keepsResident p (s.step c) cs

/-- Every call of the sequence is admitted in the state it is made in. -/
def admitted : BufferPoolManager → List Call → Prop
  | _, [] => True
  | s, c :: cs => c.ok s ∧ admitted (s.step c) cs

/-- A pool of two frames whose least recently unpinned frame is pinned again:
the state after `FetchPage(1)`, `UnpinPage(1, false)`, `FetchPage(1)`,
`FetchPage(2)`, `UnpinPage(2, false)`. -/
def repinnedOldest : BufferPoolManager :=
  (new 2 DiskManager.blank).steps
    [Call.fetch 1, Call.unpin 1 false, Call.fetch 1, Call.fetch 2, Call.unpin 2 false]

/-- The pages `done` have each been fetched once into a fresh pool and are all
still pinned: they are the resident pages, each with pin count 1, the replacer
is empty, and the free list holds the remaining frames. -/
structure Loaded (done : List page_id_t) (s : BufferPoolManager) : Prop where
  inv : Inv s
  repl : s.replacer_.queue_ = []
  pinned : ∀ p ∈ done, ∃ f, PageTable.Find s.page_table_ p = some f ∧ (s.page f).pin_count_ = 1
  only : ∀ p f, PageTable.Find s.page_table_ p = some f → p ∈ done
  free : s.free_list_.length + done.length = s.pool_size_

/-- Calls a member function makes on the manager's mutex `latch_`. -/
inductive LatchCall where
  | lock
  | unlock
deriving DecidableEq, Repr

/-- The calls on `latch_` each public member function makes, in program order
(buffer_pool_manager.cpp): `FetchPage` 53 and 66, `UnpinPage` 81 and 100,
`FlushPage` 115 and 124, `NewPage` 185 and 192; the body of `DeletePage`,
136-172, has none. -/
def latchCalls : Call → List LatchCall
  | .fetch _ => [LatchCall.lock, LatchCall.unlock]
  | .unpin _ _ => [LatchCall.lock, LatchCall.unlock]
  | .flush _ => [LatchCall.lock, LatchCall.unlock]
  | .delete _ => []
  | .allocate _ => [LatchCall.lock, LatchCall.unlock]

/-- The reading part of `DeletePage` (buffer_pool_manager.cpp, 141-143): the
page-table look-up and the pin-count test. The result is the frame held in the
local `page` when the function goes on to its mutations. -/
def deleteLookup (s : BufferPoolManager) (page_id : page_id_t) : Option Nat :=
  match PageTable.Find s.page_table_ page_id with
  | some f => if (s.page f).pin_count_ > 0 then none else some f
  | none => none

/-- The mutating part of `DeletePage` (buffer_pool_manager.cpp, 145-169), run
with the frame `f` its local `page` points to. -/
def deleteMutate (s : BufferPoolManager) (page_id : page_id_t) (f : Nat) :
    Bool × BufferPoolManager :=
  match PageTable.Remove s.page_table_ page_id with
  | (false, t1) => (false, { s with page_table_ := t1 })
  | (true, t1) =>
    match s.replacer_.Erase f with
    | (false, r1) => (false, { s with page_table_ := t1, replacer_ := r1 })
    | (true, r1) =>
      let pg := (s.page f).ResetMemory
      let pg := { pg with page_id_ := INVALID_PAGE_ID, pin_count_ := 0, is_dirty_ := false }
      (true, { s with pages_ := s.pages_.set f pg,
                      page_table_ := t1,
                      replacer_ := r1,
                      free_list_ := s.free_list_ ++ [f],
                      disk_manager_ := s.disk_manager_.DeallocatePage page_id })

/-- A pool of one frame holding page 1 unpinned: the state after `FetchPage(1)`,
`UnpinPage(1, false)`. -/
def unpinnedOnce : BufferPoolManager :=
  ((new 1 DiskManager.blank).step (Call.fetch 1)).step (Call.unpin 1 false)

end BufferPoolManager

end cmudb

/-! ## Theorems about the replacer -/

set_option linter.unusedSectionVars false

namespace cmudb

namespace LRUReplacer

variable {T : Type} [DecidableEq T]

theorem wf_empty : Wf (empty : LRUReplacer T) := by
  simp [Wf, empty]

theorem wf_mem_iff {s : LRUReplacer T} (h : Wf s) (k : T) : k ∈ s.map_ ↔ k ∈ s.queue_ :=
  h.2.mem_iff

theorem wf_map_nodup {s : LRUReplacer T} (h : Wf s) : s.map_.Nodup :=
  h.2.nodup_iff.mpr h.1

theorem wf_size_eq {s : LRUReplacer T} (h : Wf s) : s.Size = s.queue_.length :=
  h.2.length_eq

/-- On a well-formed replacer `Insert` moves the key to the back of both lists. -/
theorem wf_insert_eq {s : LRUReplacer T} (h : Wf s) (k : T) :
    s.Insert k = { queue_ := s.queue_.erase k ++ [k], map_ := s.map_.erase k ++ [k] } := by
  unfold Insert mapInsert
  by_cases hk : k ∈ s.map_
  · have h1 : k ∉ s.map_.erase k := fun hm => (List.Nodup.mem_erase_iff (wf_map_nodup h)).1 hm |>.1 rfl
    simp [hk, h1]
  · have h2 : k ∉ s.queue_ := fun hq => hk (((wf_mem_iff h) k).2 hq)
    simp [hk, List.erase_of_not_mem hk, List.erase_of_not_mem h2]

theorem wf_insert {s : LRUReplacer T} (h : Wf s) (k : T) : Wf (s.Insert k) := by
  rw [(wf_insert_eq h)]
  refine ⟨?_, ?_⟩
  · simp only
    rw [List.nodup_append]
    refine ⟨h.1.erase k, List.nodup_singleton k, ?_⟩
    intro a ha hb
    simp at hb
    subst hb
    exact ((List.Nodup.mem_erase_iff h.1).1 ha).1 rfl
  · simp only
    exact (h.2.erase k).append_right [k]

theorem wf_erase {s : LRUReplacer T} (h : Wf s) (k : T) : Wf (s.Erase k).2 := by
  unfold Erase
  split
  · exact ⟨h.1.erase k, h.2.erase k⟩
  · exact h

theorem wf_victim {s : LRUReplacer T} (h : Wf s) (o : Option T) : Wf (s.Victim o).2.2 := by
  unfold Victim
  split
  · exact h
  · split
    · exact h
    · next v rest hq =>
      refine ⟨?_, ?_⟩
      · have := h.1; rw [hq] at this; exact (List.nodup_cons.1 this).2
      · have := h.2.erase v
        rw [hq] at this
        simpa using this

theorem reachable_wf {s : LRUReplacer T} (h : Reachable s) : Wf s := by
  induction h with
  | init => exact wf_empty
  | insert k _ ih => exact (wf_insert ih) k
  | victim v _ ih => exact (wf_victim ih) v
  | erase k _ ih => exact (wf_erase ih) k

theorem hist_empty : Hist (empty : LRUReplacer T) [] := by
  refine ⟨wf_empty, ?_, ?_, ?_⟩ <;> simp [empty, lastIns]

theorem hist_insert {s : LRUReplacer T} {h : List (Ev T)} (H : Hist s h) (k : T) :
    Hist (s.Insert k) (Ev.ins k :: h) := by
  have hq : (s.Insert k).queue_ = s.queue_.erase k ++ [k] := by rw [(wf_insert_eq H.wf)]
  have hne : ∀ x ∈ s.queue_.erase k, x ≠ k := fun x hx =>
    ((List.Nodup.mem_erase_iff H.wf.1).1 hx).1
  refine ⟨(wf_insert H.wf) k, ?_, ?_, ?_⟩
  · intro x
    rw [hq]
    by_cases hx : k = x
    · subst hx; simp [lastIns]
    · have hx2 : x ≠ k := fun e => hx e.symm
      simp [lastIns, hx, hx2, List.mem_erase_of_ne hx2, H.tracked x]
  · rw [hq, List.pairwise_append]
    refine ⟨?_, List.pairwise_singleton _ _, ?_⟩
    · refine (List.Pairwise.sublist (List.erase_sublist k s.queue_) H.sorted).imp_of_mem ?_
      intro a b ha hb hab i j hi hj
      have ha2 : k ≠ a := fun e => hne a ha e.symm
      have hb2 : k ≠ b := fun e => hne b hb e.symm
      simp only [lastIns, ha2, hb2, if_false] at hi hj
      exact hab i j hi hj
    · intro a ha b hb i j hi hj
      simp only [List.mem_singleton] at hb
      subst hb
      have ha2 : b ≠ a := fun e => hne a ha e.symm
      simp only [lastIns, ha2, if_false, if_true] at hi hj
      cases hj
      exact H.bound a i hi
  · intro x i hi
    simp only [lastIns] at hi
    split at hi
    · cases hi; simp
    · have := H.bound x i hi
      simp only [List.length_cons]; omega

theorem hist_nop {s : LRUReplacer T} {h : List (Ev T)} (H : Hist s h) :
    Hist s (Ev.nop :: h) := by
  refine ⟨H.wf, ?_, ?_, ?_⟩
  · intro x; simpa [lastIns] using H.tracked x
  · simpa [lastIns] using H.sorted
  · intro x i hi
    have := H.bound x i (by simpa [lastIns] using hi)
    simp only [List.length_cons]; omega

/-- Taking a tracked key out of both containers. -/
theorem hist_remove {s : LRUReplacer T} {h : List (Ev T)} (H : Hist s h) (k : T) :
    Hist { queue_ := s.queue_.erase k, map_ := s.map_.erase k } (Ev.rem k :: h) := by
  have hne : ∀ x ∈ s.queue_.erase k, x ≠ k := fun x hx =>
    ((List.Nodup.mem_erase_iff H.wf.1).1 hx).1
  refine ⟨⟨H.wf.1.erase k, H.wf.2.erase k⟩, ?_, ?_, ?_⟩
  · intro x
    by_cases hx : k = x
    · subst hx
      simp [lastIns, List.Nodup.mem_erase_iff H.wf.1]
    · have hx2 : x ≠ k := fun e => hx e.symm
      simp [lastIns, hx, List.mem_erase_of_ne hx2, H.tracked x]
  · refine (List.Pairwise.sublist (List.erase_sublist k s.queue_) H.sorted).imp_of_mem ?_
    intro a b ha hb hab i j hi hj
    have ha2 : k ≠ a := fun e => hne a ha e.symm
    have hb2 : k ≠ b := fun e => hne b hb e.symm
    simp only [lastIns, ha2, hb2, if_false] at hi hj
    exact hab i j hi hj
  · intro x i hi
    simp only [lastIns] at hi
    split at hi
    · cases hi
    · have := H.bound x i hi
      simp only [List.length_cons]; omega

/-- On a well-formed, non-empty replacer `Victim` pops the front of the queue. -/
theorem wf_victim_cons {s : LRUReplacer T} (h : Wf s) {v : T} {rest : List T}
    (hq : s.queue_ = v :: rest) (o : Option T) :
    s.Victim o = (true, some v, { queue_ := s.queue_.erase v, map_ := s.map_.erase v }) := by
  have hl : s.map_.length ≠ 0 := by
    have := (wf_size_eq h); unfold Size at this; rw [this, hq]; simp
  unfold Victim
  simp [hl, hq]

/-- On a well-formed, empty replacer `Victim` reports failure and changes nothing. -/
theorem wf_victim_nil {s : LRUReplacer T} (h : Wf s)
    (hq : s.queue_ = []) (o : Option T) : s.Victim o = (false, o, s) := by
  have hl : s.map_.length = 0 := by
    have := (wf_size_eq h); unfold Size at this; rw [this, hq]; simp
  unfold Victim
  simp [hl]

theorem hist_exec {c : LRUReplacer T × List (Ev T)} (H : Hist c.1 c.2) (op : Op T) :
    Hist (exec c op).1 (exec c op).2 := by
  cases op with
  | insert k => exact (hist_insert H) k
  | victim =>
    unfold LRUReplacer.exec
    cases hq : c.1.queue_ with
    | nil => simp only [(wf_victim_nil H.wf) hq]; exact (hist_nop H)
    | cons v rest => simp only [(wf_victim_cons H.wf) hq]; exact (hist_remove H) v
  | erase k =>
    unfold LRUReplacer.exec Erase
    by_cases hk : k ∈ c.1.map_
    · simp only [hk, if_true]; exact (hist_remove H) k
    · simp only [hk, if_false]; exact (hist_nop H)

theorem hist_foldl (ops : List (Op T)) (c : LRUReplacer T × List (Ev T)) (H : Hist c.1 c.2) :
    Hist (ops.foldl exec c).1 (ops.foldl exec c).2 := by
  induction ops generalizing c with
  | nil => exact H
  | cons op ops ih => exact ih _ ((hist_exec H) op)

theorem hist_run (ops : List (Op T)) : Hist (run ops).1 (run ops).2 :=
  hist_foldl ops _ hist_empty


/-- Applying `Insert k` once more changes nothing. -/
theorem wf_insert_insert {s : LRUReplacer T} (h : Wf s) (k : T) :
    (s.Insert k).Insert k = s.Insert k := by
  have h1 := (wf_insert h) k
  rw [(wf_insert_eq h1), (wf_insert_eq h)]
  have hq : k ∉ s.queue_.erase k := fun hm => ((List.Nodup.mem_erase_iff h.1).1 hm).1 rfl
  have hm : k ∉ s.map_.erase k := fun hm => ((List.Nodup.mem_erase_iff (wf_map_nodup h)).1 hm).1 rfl
  simp [List.erase_append_right _ hq, List.erase_append_right _ hm]

/-- C3: LRU order. For every history `ops` run on a fresh replacer: the tracked
keys are those whose latest `Insert` has not been followed by their removal;
when some key is tracked, `Victim` returns the tracked key whose latest
`Insert` is the oldest; `Insert k` puts `k` at the most-recent end of the queue
and keeps the relative order of all other keys. For distinct `a`, `b` on the
empty replacer, `Insert a; Insert b; Insert a; Victim` returns `b` and the next
`Victim` returns `a`. -/
theorem lru_order (ops : List (Op T)) (k a b : T) (o : Option T) (hab : a ≠ b) :
    (∀ x, x ∈ (run ops).1.map_ ↔ (lastIns (run ops).2 x).isSome) ∧
    ((run ops).1.Size ≠ 0 → ∃ v i, ((run ops).1.Victim o).1 = true ∧
      ((run ops).1.Victim o).2.1 = some v ∧ v ∈ (run ops).1.map_ ∧
      lastIns (run ops).2 v = some i ∧
      ∀ x j, lastIns (run ops).2 x = some j → i ≤ j) ∧
    ((run ops).1.Insert k).queue_ = (run ops).1.queue_.filter (fun x => x ≠ k) ++ [k] ∧
    (((empty.Insert a).Insert b).Insert a).Victim o
      = (true, some b, { queue_ := [a], map_ := [a] }) ∧
    Victim { queue_ := [a], map_ := [a] } o = (true, some a, empty) := by
  have H := hist_run ops
  refine ⟨fun x => ((wf_mem_iff H.wf) x).trans (H.tracked x), ?_, ?_, ?_, ?_⟩
  · intro hs
    cases hq : (run ops).1.queue_ with
    | nil => exact absurd (by rw [(wf_size_eq H.wf), hq]; rfl) hs
    | cons v rest =>
      have hv : v ∈ (run ops).1.queue_ := by rw [hq]; simp
      obtain ⟨i, hi⟩ := Option.isSome_iff_exists.1 ((H.tracked v).1 hv)
      refine ⟨v, i, ?_, ?_, ((wf_mem_iff H.wf) v).2 hv, hi, ?_⟩
      · rw [(wf_victim_cons H.wf) hq]
      · rw [(wf_victim_cons H.wf) hq]
      · intro x j hj
        have hx : x ∈ (run ops).1.queue_ := (H.tracked x).2 (by simp [hj])
        rw [hq] at hx
        rcases List.mem_cons.1 hx with rfl | hx
        · rw [hi] at hj; cases hj; exact le_refl _
        · have hs := H.sorted
          rw [hq] at hs
          exact Nat.le_of_lt ((List.pairwise_cons.1 hs).1 x hx i j hi hj)
  · rw [(wf_insert_eq H.wf), H.wf.1.erase_eq_filter]
    simp only [ne_eq, decide_not, List.append_cancel_right_eq]
    congr 1
  · have hba : b ≠ a := fun e => hab e.symm
    simp [Insert, Victim, mapInsert, empty, hab, hba]
  · simp [Victim, empty]

/-- Witness of `lru_order`: keys 1 and 2 after the history `Insert 3`. -/
theorem lru_order_witness :
    (1 : Nat) ≠ 2 ∧
    (((empty.Insert 1).Insert 2).Insert 1).Victim (none : Option Nat)
      = (true, some 2, { queue_ := [1], map_ := [1] }) :=
  ⟨by decide, (lru_order [Op.insert 3] 5 1 2 none (by decide)).2.2.2.1⟩

/-- C4: `Insert` is idempotent and creates no duplicate. In every state of a
replacer, `Insert k` applied any number of times back-to-back gives the state
of a single `Insert k`, in which `k` occurs once; `Size` grows by exactly 1 when
`k` was not tracked and is unchanged when it was. -/
theorem insert_idempotent (s : LRUReplacer T) (k : T) (n : Nat) (hs : Reachable s) :
    (s.Insert k).Insert k = s.Insert k ∧
    (fun t => Insert t k)^[n + 1] s = s.Insert k ∧
    (s.Insert k).queue_.count k = 1 ∧ (s.Insert k).map_.count k = 1 ∧
    (k ∉ s.map_ → (s.Insert k).Size = s.Size + 1) ∧
    (k ∈ s.map_ → (s.Insert k).Size = s.Size) := by
  have h := (reachable_wf hs)
  refine ⟨(wf_insert_insert h) k, ?_, ?_, ?_, ?_, ?_⟩
  · induction n with
    | zero => rfl
    | succ m ih =>
      rw [Function.iterate_succ_apply', ih]
      exact (wf_insert_insert h) k
  · have : k ∈ (s.Insert k).queue_ := by rw [(wf_insert_eq h)]; simp
    exact List.count_eq_one_of_mem ((wf_insert h) k).1 this
  · have : k ∈ (s.Insert k).map_ := by rw [(wf_insert_eq h)]; simp
    exact List.count_eq_one_of_mem (wf_map_nodup (wf_insert h k)) this
  · intro hk
    rw [(wf_insert_eq h)]
    simp [Size, List.erase_of_not_mem hk]
  · intro hk
    rw [(wf_insert_eq h)]
    have : 0 < s.map_.length := List.length_pos_of_mem hk
    simp only [Size, List.length_append, List.length_erase_of_mem hk, List.length_singleton]
    omega

/-- Witness of `insert_idempotent`: key 7 inserted into the replacer holding 7 and 8. -/
theorem insert_idempotent_witness :
    (((empty.Insert 7).Insert 8).Insert 7).Insert 7 = ((empty.Insert 7).Insert 8).Insert (7 : Nat) :=
  (insert_idempotent ((empty.Insert 7).Insert 8) 7 0
    (Reachable.insert 8 (Reachable.insert 7 Reachable.init))).1

/-- C5: `Victim`. In the state reached by any history `ops`: on an empty
replacer `Victim` returns false and leaves the replacer and the output argument
unchanged; on a non-empty one it returns true with the key at the front of the
queue, which is the tracked key with the oldest latest `Insert`; that key is no
longer tracked afterwards (an `Erase` of it returns false), `Size` drops by
exactly 1 and the remaining keys keep their order. -/
theorem victim_spec (ops : List (Op T)) (o : Option T) :
    ((run ops).1.Size = 0 → (run ops).1.Victim o = (false, o, (run ops).1)) ∧
    ((run ops).1.Size ≠ 0 → ∃ v i,
      ((run ops).1.Victim o).1 = true ∧ ((run ops).1.Victim o).2.1 = some v ∧
      (run ops).1.queue_ = v :: ((run ops).1.Victim o).2.2.queue_ ∧
      v ∈ (run ops).1.map_ ∧ lastIns (run ops).2 v = some i ∧
      (∀ x j, lastIns (run ops).2 x = some j → i ≤ j) ∧
      v ∉ ((run ops).1.Victim o).2.2.map_ ∧
      (((run ops).1.Victim o).2.2.Erase v).1 = false ∧
      (∀ x, x ≠ v → (x ∈ ((run ops).1.Victim o).2.2.map_ ↔ x ∈ (run ops).1.map_)) ∧
      ((run ops).1.Victim o).2.2.Size + 1 = (run ops).1.Size) := by
  have H := hist_run ops
  constructor
  · intro hs
    unfold Victim
    unfold Size at hs
    simp [hs]
  · intro hs
    cases hq : (run ops).1.queue_ with
    | nil => exact absurd (by rw [(wf_size_eq H.wf), hq]; rfl) hs
    | cons v rest =>
      have hv : v ∈ (run ops).1.queue_ := by rw [hq]; simp
      have hvm : v ∈ (run ops).1.map_ := ((wf_mem_iff H.wf) v).2 hv
      obtain ⟨i, hi⟩ := Option.isSome_iff_exists.1 ((H.tracked v).1 hv)
      have hnot : v ∉ (run ops).1.map_.erase v := fun hm =>
        ((List.Nodup.mem_erase_iff (wf_map_nodup H.wf)).1 hm).1 rfl
      rw [(wf_victim_cons H.wf) hq]
      refine ⟨v, i, rfl, rfl, ?_, hvm, hi, ?_, hnot, ?_, ?_, ?_⟩
      · simp [hq]
      · intro x j hj
        have hx : x ∈ (run ops).1.queue_ := (H.tracked x).2 (by simp [hj])
        rw [hq] at hx
        rcases List.mem_cons.1 hx with rfl | hx
        · rw [hi] at hj; cases hj; exact le_refl _
        · have hs := H.sorted
          rw [hq] at hs
          exact Nat.le_of_lt ((List.pairwise_cons.1 hs).1 x hx i j hi hj)
      · simp only [Erase, hnot, if_false]
      · intro x hx
        exact List.mem_erase_of_ne hx
      · have : 0 < (run ops).1.map_.length := List.length_pos_of_mem hvm
        simp only [Size, List.length_erase_of_mem hvm]
        omega

/-- Witness of `victim_spec`: after `Insert 4; Insert 9` the victim is 4. -/
theorem victim_spec_witness :
    ∃ v i, ((run [Op.insert 4, Op.insert (9 : Nat)]).1.Victim none).1 = true ∧
      ((run [Op.insert 4, Op.insert (9 : Nat)]).1.Victim none).2.1 = some v ∧
      (run [Op.insert 4, Op.insert (9 : Nat)]).1.queue_
        = v :: ((run [Op.insert 4, Op.insert (9 : Nat)]).1.Victim none).2.2.queue_ ∧
      v ∈ (run [Op.insert 4, Op.insert (9 : Nat)]).1.map_ ∧
      lastIns (run [Op.insert 4, Op.insert (9 : Nat)]).2 v = some i ∧
      (∀ x j, lastIns (run [Op.insert 4, Op.insert (9 : Nat)]).2 x = some j → i ≤ j) ∧
      v ∉ ((run [Op.insert 4, Op.insert (9 : Nat)]).1.Victim none).2.2.map_ ∧
      (((run [Op.insert 4, Op.insert (9 : Nat)]).1.Victim none).2.2.Erase v).1 = false ∧
      (∀ x, x ≠ v → (x ∈ ((run [Op.insert 4, Op.insert (9 : Nat)]).1.Victim none).2.2.map_
        ↔ x ∈ (run [Op.insert 4, Op.insert (9 : Nat)]).1.map_)) ∧
      ((run [Op.insert 4, Op.insert (9 : Nat)]).1.Victim none).2.2.Size + 1
        = (run [Op.insert 4, Op.insert (9 : Nat)]).1.Size :=
  (victim_spec [Op.insert 4, Op.insert (9 : Nat)] none).2 (by decide)

/-- C6: `Erase`. In every state of a replacer, `Erase k` returns true if and
only if `k` was tracked; when it returns true exactly `k` is removed: `Size`
drops by 1 and every other key stays tracked in the same relative order; when
it returns false the replacer is unchanged. -/
theorem erase_spec (s : LRUReplacer T) (k : T) (hs : Reachable s) :
    ((s.Erase k).1 = true ↔ k ∈ s.map_) ∧
    ((s.Erase k).1 = true →
      (s.Erase k).2.Size + 1 = s.Size ∧
      (s.Erase k).2.queue_ = s.queue_.filter (fun x => x ≠ k) ∧
      k ∉ (s.Erase k).2.map_ ∧
      (∀ x, x ≠ k → (x ∈ (s.Erase k).2.map_ ↔ x ∈ s.map_))) ∧
    ((s.Erase k).1 = false → (s.Erase k).2 = s) := by
  have h := (reachable_wf hs)
  by_cases hk : k ∈ s.map_
  · have hnot : k ∉ s.map_.erase k := fun hm =>
      ((List.Nodup.mem_erase_iff (wf_map_nodup h)).1 hm).1 rfl
    have hpos : 0 < s.map_.length := List.length_pos_of_mem hk
    simp only [Erase, hk, if_true, true_iff, forall_true_left, true_and]
    refine ⟨⟨?_, ?_, hnot, ?_⟩, ?_⟩
    · simp only [Size, List.length_erase_of_mem hk]; omega
    · rw [h.1.erase_eq_filter]
      simp only [ne_eq, decide_not]
      congr 1
    · intro x hx
      exact List.mem_erase_of_ne hx
    · intro hf; cases hf
  · simp [Erase, hk]

/-- Witness of `erase_spec`: erasing 5 from the replacer holding 5 and 6. -/
theorem erase_spec_witness :
    (((empty.Insert 5).Insert 6).Erase (5 : Nat)).1 = true ∧
    (((empty.Insert 5).Insert 6).Erase (5 : Nat)).2.queue_ = [6] :=
  ⟨((erase_spec ((empty.Insert 5).Insert 6) 5
      (Reachable.insert 6 (Reachable.insert 5 Reachable.init))).1).2 (by decide),
   by decide⟩

end LRUReplacer

end cmudb

/-! ## Theorems about the manager -/

namespace cmudb

namespace BufferPoolManager

theorem find_filter (t : PageTable) (k q : page_id_t) :
    PageTable.Find (t.filter (fun e => e.1 ≠ k)) q
      = if q = k then none else PageTable.Find t q := by
  induction t with
  | nil => simp [PageTable.Find]
  | cons e t ih =>
    obtain ⟨a, v⟩ := e
    simp only [ne_eq, decide_not] at ih ⊢
    by_cases ha : a = k
    · subst ha
      by_cases hq : q = a
      · subst hq; simpa [List.filter, PageTable.Find] using ih
      · have hq2 : ¬ a = q := fun e => hq e.symm
        simp [List.filter, PageTable.Find, hq, hq2, ih]
    · by_cases hq : a = q
      · subst hq; simp [List.filter, PageTable.Find, ha]
      · simp [List.filter, ha, PageTable.Find, hq, ih]

theorem find_remove (t : PageTable) (k q : page_id_t) :
    PageTable.Find (PageTable.Remove t k).2 q
      = if q = k then none else PageTable.Find t q := by
  simp only [PageTable.Remove]; exact find_filter t k q

theorem find_insert (t : PageTable) (k : page_id_t) (v : Nat) (q : page_id_t) :
    PageTable.Find (PageTable.Insert t k v) q
      = if q = k then some v else PageTable.Find t q := by
  by_cases h : q = k
  · subst h; simp [PageTable.Insert, PageTable.Find]
  · have h2 : ¬ k = q := fun e => h e.symm
    simp only [PageTable.Insert, PageTable.Find, h, h2, if_false, find_filter]

theorem keys_filter_nodup (t : PageTable) (k : page_id_t)
    (h : (t.map Prod.fst).Nodup) : ((t.filter (fun e => e.1 ≠ k)).map Prod.fst).Nodup :=
  h.sublist ((List.filter_sublist t).map Prod.fst)

theorem keys_insert_nodup (t : PageTable) (k : page_id_t) (v : Nat)
    (h : (t.map Prod.fst).Nodup) : ((PageTable.Insert t k v).map Prod.fst).Nodup := by
  simp only [PageTable.Insert, List.map_cons, List.nodup_cons]
  refine ⟨?_, keys_filter_nodup t k h⟩
  simp [List.mem_map, List.mem_filter]

theorem page_set (s : BufferPoolManager) (f g : Nat) (pg : Page) (hf : f < s.pages_.length) :
    (s.pages_.set f pg).getD g Page.fresh = if g = f then pg else s.page g := by
  unfold page
  by_cases h : g = f
  · subst h
    simp [List.getD_eq_getElem?_getD, List.getElem?_set, hf]
  · have h2 : ¬ f = g := fun e => h e.symm
    simp [List.getD_eq_getElem?_getD, List.getElem?_set, h, h2]

/-- Frame `g` as seen after `initAndPinPage` installed `p` in frame `f`. -/
theorem page_install (s : BufferPoolManager) (f g : Nat) (p : page_id_t)
    (hf : f < s.pages_.length) :
    (s.initAndPinPage (some f) p).page g =
      if g = f then
        { data_ := zeroData, page_id_ := p, pin_count_ := 1, is_dirty_ := false }
      else s.page g := by
  show (s.pages_.set f _).getD g Page.fresh = _
  rw [page_set s f g _ hf]
  simp [Page.ResetMemory]

/-- The page table after `initAndPinPage` installed `p` in frame `f`. -/
theorem find_install (s : BufferPoolManager) (f : Nat) (p q : page_id_t) :
    PageTable.Find (s.initAndPinPage (some f) p).page_table_ q =
      if q = p then some f
      else if q = (s.page f).page_id_ then none
      else PageTable.Find s.page_table_ q := by
  show PageTable.Find (PageTable.Insert (PageTable.Remove s.page_table_ _).2 p f) q = _
  rw [find_insert, find_remove]

theorem inv_install {s : BufferPoolManager} {f : Nat} {p : page_id_t} (H : Pre s f)
    (hp : p ≠ INVALID_PAGE_ID) (hmiss : PageTable.Find s.page_table_ p = none) :
    Inv (s.initAndPinPage (some f) p) := by
  have hlen : (s.initAndPinPage (some f) p).pages_.length = s.pages_.length := by
    show (s.pages_.set f _).length = _
    simp
  -- an entry of another page never points to `f`
  have hother : ∀ q g, q ≠ (s.page f).page_id_ → PageTable.Find s.page_table_ q = some g →
      g ≠ f := by
    intro q g hq hg hgf
    subst hgf
    exact hq (H.table_id q g hg).symm
  -- the entry of a frame other than `f` survives
  have hkeep : ∀ g, g ≠ f → PageTable.Find s.page_table_ (s.page g).page_id_ = some g →
      PageTable.Find (s.initAndPinPage (some f) p).page_table_ (s.page g).page_id_ = some g := by
    intro g hgf hg
    rw [find_install]
    have h1 : (s.page g).page_id_ ≠ p := by
      intro e; rw [e, hmiss] at hg; cases hg
    have h2 : (s.page g).page_id_ ≠ (s.page f).page_id_ := by
      intro e
      rcases H.f_state with hinv | hres
      · rw [e, hinv, H.table_valid] at hg; cases hg
      · rw [e, hres] at hg; cases hg; exact hgf rfl
    simp [h1, h2, hg]
  refine ⟨hlen.trans H.len, H.wf, ?_, H.free_nodup, ?_, ?_, ?_, ?_, ?_, ?_, ?_, ?_⟩
  · intro g hg; rw [hlen]; exact H.free_lt g hg
  · intro g hg
    have hgf : g ≠ f := fun e => H.f_free (e ▸ hg)
    rw [page_install s f g p H.f_lt]
    simp only [hgf, if_false]
    exact H.free_invalid g hg
  · exact keys_insert_nodup _ _ _ (keys_filter_nodup _ _ H.table_keys)
  · intro q g hg
    rw [hlen]
    rw [find_install] at hg
    split at hg
    · cases hg; exact H.f_lt
    · split at hg
      · cases hg
      · exact H.table_lt q g hg
  · intro q g hg
    rw [find_install] at hg
    rw [page_install s f g p H.f_lt]
    split at hg
    · next hq => cases hg; simp [hq]
    · split at hg
      · cases hg
      · next _ hq2 =>
        have hgf := hother q g hq2 hg
        simp only [hgf, if_false]
        exact H.table_id q g hg
  · rw [find_install]
    have h1 : INVALID_PAGE_ID ≠ p := fun e => hp e.symm
    simp only [h1, if_false]
    split
    · rfl
    · exact H.table_valid
  · intro g hg
    have hgf : g ≠ f := fun e => H.f_repl (e ▸ hg)
    have hpg : (s.initAndPinPage (some f) p).page g = s.page g := by
      rw [page_install s f g p H.f_lt]; simp [hgf]
    rw [hpg]
    exact hkeep g hgf (H.repl_res g hg)
  · intro q g hg hpin
    rw [find_install] at hg
    rw [page_install s f g p H.f_lt] at hpin
    split at hg
    · cases hg; simp at hpin
    · split at hg
      · cases hg
      · next _ hq2 =>
        have hgf := hother q g hq2 hg
        simp only [hgf, if_false] at hpin
        exact H.pin0 q g hg hgf hpin
  · intro g hg
    rw [hlen] at hg
    by_cases hgf : g = f
    · subst hgf
      right
      rw [page_install s g g p H.f_lt, find_install]
      simp
    · have hpg : (s.initAndPinPage (some f) p).page g = s.page g := by
        rw [page_install s f g p H.f_lt]; simp [hgf]
      rcases H.cover g hg hgf with h | h
      · exact Or.inl h
      · right; rw [hpg]; exact hkeep g hgf h

theorem getFreePage_free (s : BufferPoolManager) (f : Nat) (rest : List Nat)
    (h : s.free_list_ = f :: rest) :
    s.getFreePage = (some f, { s with free_list_ := rest }) := by
  unfold getFreePage
  simp [h]

theorem getFreePage_victim (s : BufferPoolManager) (f : Nat) (rest : List Nat)
    (hw : s.replacer_.Wf) (h : s.free_list_ = []) (hq : s.replacer_.queue_ = f :: rest) :
    s.getFreePage = (some f, s.afterVictim f) := by
  unfold getFreePage afterVictim
  simp only [h, List.length_nil, gt_iff_lt, lt_self_iff_false, if_false,
    LRUReplacer.wf_victim_cons hw hq]
  show (if (s.page f).is_dirty_ = true then _ else _) = _
  split <;> rfl

theorem getFreePage_none (s : BufferPoolManager)
    (hw : s.replacer_.Wf) (h : s.free_list_ = []) (hq : s.replacer_.queue_ = []) :
    s.getFreePage = (none, s) := by
  have hl : ¬ (s.free_list_.length > 0) := by rw [h]; simp
  unfold getFreePage
  rw [if_neg hl, LRUReplacer.wf_victim_nil hw hq]

theorem pre_free {s : BufferPoolManager} {f : Nat} {rest : List Nat} (H : Inv s)
    (h : s.free_list_ = f :: rest) : Pre { s with free_list_ := rest } f := by
  have hnd := H.free_nodup
  rw [h] at hnd
  have hfm : f ∈ s.free_list_ := by rw [h]; simp
  have hsub : ∀ g ∈ rest, g ∈ s.free_list_ := fun g hg => by rw [h]; exact List.mem_cons_of_mem _ hg
  have hinv := H.free_invalid f hfm
  refine ⟨H.len, H.wf, fun g hg => H.free_lt g (hsub g hg), (List.nodup_cons.1 hnd).2,
    fun g hg => H.free_invalid g (hsub g hg), H.table_keys, H.table_lt, H.table_id,
    H.table_valid, H.repl_res, fun p g hg _ hp => H.pin0 p g hg hp, ?_, H.free_lt f hfm,
    (List.nodup_cons.1 hnd).1, ?_, Or.inl hinv⟩
  · intro g hg hgf
    rcases H.cover g hg with hc | hc
    · rw [h] at hc
      rcases List.mem_cons.1 hc with e | hc
      · exact absurd e hgf
      · exact Or.inl hc
    · exact Or.inr hc
  · intro hr
    have := H.repl_res f hr
    rw [hinv, H.table_valid] at this
    cases this

theorem pre_victim {s : BufferPoolManager} {f : Nat} {rest : List Nat} (H : Inv s)
    (h : s.free_list_ = []) (hq : s.replacer_.queue_ = f :: rest) : Pre (s.afterVictim f) f := by
  have hfq : f ∈ s.replacer_.queue_ := by rw [hq]; simp
  have hmem : ∀ g, g ∈ s.replacer_.queue_.erase f ↔ g ≠ f ∧ g ∈ s.replacer_.queue_ :=
    fun g => List.Nodup.mem_erase_iff H.wf.1
  refine ⟨H.len, ⟨H.wf.1.erase f, H.wf.2.erase f⟩, H.free_lt, H.free_nodup, H.free_invalid,
    H.table_keys, H.table_lt, H.table_id, H.table_valid,
    fun g hg => H.repl_res g ((hmem g).1 hg).2,
    fun p g hg hgf hp => (hmem g).2 ⟨hgf, H.pin0 p g hg hp⟩,
    fun g hg _ => H.cover g hg, H.table_lt _ f (H.repl_res f hfq), ?_,
    fun hm => ((hmem f).1 hm).1 rfl, Or.inr (H.repl_res f hfq)⟩
  show f ∉ s.free_list_
  rw [h]; simp

/-- What `getFreePage` returns in a state satisfying the invariant. -/
theorem getFreePage_cases {s : BufferPoolManager} (H : Inv s) :
    (∃ f rest, s.free_list_ = f :: rest ∧
      s.getFreePage = (some f, { s with free_list_ := rest })) ∨
    (∃ f rest, s.free_list_ = [] ∧ s.replacer_.queue_ = f :: rest ∧
      s.getFreePage = (some f, s.afterVictim f)) ∨
    (s.free_list_ = [] ∧ s.replacer_.queue_ = [] ∧ s.getFreePage = (none, s)) := by
  cases hfl : s.free_list_ with
  | cons f rest => exact Or.inl ⟨f, rest, rfl, getFreePage_free s f rest hfl⟩
  | nil =>
    cases hq : s.replacer_.queue_ with
    | cons f rest => exact Or.inr (Or.inl ⟨f, rest, rfl, rfl, getFreePage_victim s f rest H.wf hfl hq⟩)
    | nil => exact Or.inr (Or.inr ⟨rfl, rfl, getFreePage_none s H.wf hfl hq⟩)

theorem getFreePage_pre {s s1 : BufferPoolManager} {f : Nat} (H : Inv s)
    (h : s.getFreePage = (some f, s1)) :
    Pre s1 f ∧ s1.pages_ = s.pages_ ∧ s1.page_table_ = s.page_table_ := by
  rcases getFreePage_cases H with ⟨g, rest, hfl, hg⟩ | ⟨g, rest, hfl, hq, hg⟩ | ⟨_, _, hg⟩
  · rw [hg] at h; cases h
    exact ⟨pre_free H hfl, rfl, rfl⟩
  · rw [hg] at h; cases h
    exact ⟨pre_victim H hfl hq, rfl, rfl⟩
  · rw [hg] at h; cases h

/-- The invariant does not look at bytes, dirty flags or durable storage. -/
theorem inv_congr {s t : BufferPoolManager} (H : Inv s)
    (h1 : t.pool_size_ = s.pool_size_) (h2 : t.pages_.length = s.pages_.length)
    (h3 : t.page_table_ = s.page_table_) (h4 : t.replacer_ = s.replacer_)
    (h5 : t.free_list_ = s.free_list_)
    (h6 : ∀ g, (t.page g).page_id_ = (s.page g).page_id_)
    (h7 : ∀ g, (t.page g).pin_count_ = (s.page g).pin_count_) : Inv t := by
  refine ⟨by rw [h1, h2]; exact H.len, h4 ▸ H.wf, ?_, h5 ▸ H.free_nodup, ?_, h3 ▸ H.table_keys,
    ?_, ?_, h3 ▸ H.table_valid, ?_, ?_, ?_⟩
  · rw [h5, h2]; exact H.free_lt
  · rw [h5]; intro g hg; rw [h6]; exact H.free_invalid g hg
  · rw [h3, h2]; exact H.table_lt
  · rw [h3]; intro p g hg; rw [h6]; exact H.table_id p g hg
  · rw [h3, h4]; intro g hg; rw [h6]; exact H.repl_res g hg
  · rw [h3, h4]; intro p g hg hp; rw [h7] at hp; exact H.pin0 p g hg hp
  · rw [h2, h3, h5]; intro g hg; rw [h6]; exact H.cover g hg

theorem page_new (pool_size : Nat) (d : DiskManager) (f : Nat) :
    (new pool_size d).page f = Page.fresh := by
  show (List.replicate pool_size Page.fresh).getD f Page.fresh = Page.fresh
  rw [List.getD_eq_getElem?_getD, List.getElem?_replicate]
  split <;> rfl

theorem inv_new (pool_size : Nat) (d : DiskManager) : Inv (new pool_size d) := by
  refine ⟨?_, LRUReplacer.wf_empty, ?_, ?_, ?_, ?_, ?_, ?_, rfl, ?_, ?_, ?_⟩
  · simp [new]
  · intro f hf
    simpa [new] using hf
  · exact List.nodup_range pool_size
  · intro f _; rw [page_new]; rfl
  · simp [new]
  · intro p f h; simp [new, PageTable.Find] at h
  · intro p f h; simp [new, PageTable.Find] at h
  · intro f h; simp [new, LRUReplacer.empty] at h
  · intro p f h; simp [new, PageTable.Find] at h
  · intro f hf
    left
    simpa [new] using hf

theorem page_setPage (s : BufferPoolManager) (f g : Nat) (pg : Page) (hf : f < s.pages_.length) :
    (s.setPage f pg).page g = if g = f then pg else s.page g :=
  page_set s f g pg hf

/-- Rewriting a resident-or-free frame without touching its page id, and
without bringing its pin count to zero, keeps the invariant. -/
theorem inv_setPage {s : BufferPoolManager} (H : Inv s) (f : Nat) (pg : Page)
    (hf : f < s.pages_.length) (hid : pg.page_id_ = (s.page f).page_id_)
    (hpin : pg.pin_count_ = 0 → (s.page f).pin_count_ = 0) : Inv (s.setPage f pg) := by
  have hlen : (s.setPage f pg).pages_.length = s.pages_.length := by simp [setPage]
  have hpid : ∀ g, ((s.setPage f pg).page g).page_id_ = (s.page g).page_id_ := by
    intro g
    rw [page_setPage s f g pg hf]
    split
    · next h => rw [h, hid]
    · rfl
  refine ⟨hlen.trans H.len, H.wf, ?_, H.free_nodup, ?_, H.table_keys, ?_, ?_, H.table_valid,
    ?_, ?_, ?_⟩
  · intro g hg; rw [hlen]; exact H.free_lt g hg
  · intro g hg; rw [hpid]; exact H.free_invalid g hg
  · intro p g hg; rw [hlen]; exact H.table_lt p g hg
  · intro p g hg; rw [hpid]; exact H.table_id p g hg
  · intro g hg; rw [hpid]; exact H.repl_res g hg
  · intro p g hg hp
    rw [page_setPage s f g pg hf] at hp
    split at hp
    · next h => subst h; exact H.pin0 p g hg (hpin hp)
    · exact H.pin0 p g hg hp
  · intro g hg; rw [hpid]; rw [hlen] at hg; exact H.cover g hg

theorem mem_insert_queue {r : LRUReplacer Nat} (h : r.Wf) (k x : Nat) :
    x ∈ (r.Insert k).queue_ ↔ x = k ∨ x ∈ r.queue_ := by
  rw [LRUReplacer.wf_insert_eq h]
  simp only [List.mem_append, List.mem_singleton]
  constructor
  · rintro (hx | hx)
    · exact Or.inr (List.mem_of_mem_erase hx)
    · exact Or.inl hx
  · rintro (hx | hx)
    · exact Or.inr hx
    · by_cases e : x = k
      · exact Or.inr e
      · exact Or.inl ((List.mem_erase_of_ne e).2 hx)

/-- Rewriting a resident frame without touching its page id and handing it to
the replacer keeps the invariant, whatever its pin count. -/
theorem inv_setPage_insert {s : BufferPoolManager} (H : Inv s) (p : page_id_t) (f : Nat)
    (pg : Page) (hres : PageTable.Find s.page_table_ p = some f)
    (hid : pg.page_id_ = (s.page f).page_id_) :
    Inv { s.setPage f pg with replacer_ := s.replacer_.Insert f } := by
  have hf := H.table_lt p f hres
  have hlen : (s.setPage f pg).pages_.length = s.pages_.length := by simp [setPage]
  have hpage : ∀ g, BufferPoolManager.page
      { s.setPage f pg with replacer_ := s.replacer_.Insert f } g = (s.setPage f pg).page g :=
    fun _ => rfl
  have hpid : ∀ g, ((s.setPage f pg).page g).page_id_ = (s.page g).page_id_ := by
    intro g
    rw [page_setPage s f g pg hf]
    split
    · next h => rw [h, hid]
    · rfl
  refine ⟨hlen.trans H.len, LRUReplacer.wf_insert H.wf f, ?_, H.free_nodup, ?_, H.table_keys,
    ?_, ?_, H.table_valid, ?_, ?_, ?_⟩
  · intro g hg; show g < (s.setPage f pg).pages_.length; rw [hlen]; exact H.free_lt g hg
  · intro g hg; rw [hpage, hpid]; exact H.free_invalid g hg
  · intro q g hg; show g < (s.setPage f pg).pages_.length; rw [hlen]; exact H.table_lt q g hg
  · intro q g hg; rw [hpage, hpid]; exact H.table_id q g hg
  · intro g hg
    rw [hpage, hpid]
    rcases (mem_insert_queue H.wf f g).1 hg with e | hg
    · subst e
      show PageTable.Find s.page_table_ _ = _
      rw [H.table_id p g hres]; exact hres
    · exact H.repl_res g hg
  · intro q g hg hp
    apply (mem_insert_queue H.wf f g).2
    by_cases e : g = f
    · exact Or.inl e
    · right
      rw [hpage, page_setPage s f g pg hf] at hp
      simp only [e, if_false] at hp
      exact H.pin0 q g hg hp
  · intro g hg
    rw [hpage, hpid]
    exact H.cover g (by rw [← hlen]; exact hg)

theorem fetch_hit (s : BufferPoolManager) (p : page_id_t) (f : Nat)
    (h : PageTable.Find s.page_table_ p = some f) :
    s.FetchPage p =
      (some f, s.setPage f { s.page f with pin_count_ := (s.page f).pin_count_ + 1 }) := by
  unfold FetchPage
  rw [h]

/-- The state a fetch miss leaves once `getFreePage` has handed out `f` in `s1`. -/
theorem fetch_miss (s s1 : BufferPoolManager) (p : page_id_t) (f : Nat)
    (h : PageTable.Find s.page_table_ p = none) (hg : s.getFreePage = (some f, s1)) :
    s.FetchPage p =
      (some f, { s1.initAndPinPage (some f) p with
        pages_ := (s1.initAndPinPage (some f) p).pages_.set f
          { (s1.initAndPinPage (some f) p).page f with
            data_ := (s1.initAndPinPage (some f) p).disk_manager_.content p },
        disk_manager_ := ((s1.initAndPinPage (some f) p).disk_manager_.ReadPage p).2 }) := by
  unfold FetchPage
  rw [h, hg]
  rfl

theorem fetch_fail (s s1 : BufferPoolManager) (p : page_id_t)
    (h : PageTable.Find s.page_table_ p = none) (hg : s.getFreePage = (none, s1)) :
    s.FetchPage p = (none, s1) := by
  unfold FetchPage
  rw [h, hg]

/-- Loading bytes into a frame and talking to durable storage keeps the invariant. -/
theorem inv_data {t : BufferPoolManager} (H : Inv t) (f : Nat) (hf : f < t.pages_.length)
    (data : List Nat) (d : DiskManager) :
    Inv { t with pages_ := t.pages_.set f { t.page f with data_ := data },
                 disk_manager_ := d } := by
  have h := inv_setPage H f { t.page f with data_ := data } hf rfl (fun h => h)
  exact inv_congr h rfl rfl rfl rfl rfl (fun _ => rfl) (fun _ => rfl)

theorem inv_fetch {s : BufferPoolManager} (H : Inv s) (p : page_id_t)
    (hp : p ≠ INVALID_PAGE_ID) : Inv (s.FetchPage p).2 := by
  cases hfind : PageTable.Find s.page_table_ p with
  | some f =>
    rw [fetch_hit s p f hfind]
    exact inv_setPage H f _ (H.table_lt p f hfind) rfl (fun h => by simp at h)
  | none =>
    rcases getFreePage_cases H with ⟨f, rest, hfl, hg⟩ | ⟨f, rest, hfl, hq, hg⟩ | ⟨_, _, hg⟩
    · rw [fetch_miss s _ p f hfind hg]
      have hI := inv_install (pre_free H hfl) hp hfind
      exact inv_data hI f (hI.table_lt p f (by rw [find_install]; simp)) _ _
    · rw [fetch_miss s _ p f hfind hg]
      have hI := inv_install (pre_victim H hfl hq) hp hfind
      exact inv_data hI f (hI.table_lt p f (by rw [find_install]; simp)) _ _
    · rw [fetch_fail s s p hfind hg]
      exact H

theorem inv_newPage {s : BufferPoolManager} (H : Inv s) (p : page_id_t)
    (hp : p ≠ INVALID_PAGE_ID) (hmiss : PageTable.Find s.page_table_ p = none) :
    Inv (s.NewPage p).2.2 := by
  have H0 : Inv { s with disk_manager_ := (s.disk_manager_.AllocatePage p).2 } :=
    inv_congr H rfl rfl rfl rfl rfl (fun _ => rfl) (fun _ => rfl)
  unfold NewPage
  rcases getFreePage_cases H0 with ⟨f, rest, hfl, hg⟩ | ⟨f, rest, hfl, hq, hg⟩ | ⟨_, _, hg⟩
  · simp only [hg]
    exact inv_install (pre_free H0 hfl) hp hmiss
  · simp only [hg]
    exact inv_install (pre_victim H0 hfl hq) hp hmiss
  · simp only [hg]
    exact H0

theorem inv_flush {s : BufferPoolManager} (H : Inv s) (p : page_id_t) :
    Inv (s.FlushPage p).2 := by
  unfold FlushPage
  cases hfind : PageTable.Find s.page_table_ p with
  | none => exact H
  | some f =>
    have h := inv_setPage H f { s.page f with is_dirty_ := false } (H.table_lt p f hfind) rfl
      (fun h => h)
    exact inv_congr h rfl rfl rfl rfl rfl (fun _ => rfl) (fun _ => rfl)

theorem inv_unpin {s : BufferPoolManager} (H : Inv s) (p : page_id_t) (d : Bool) :
    Inv (s.UnpinPage p d).2 := by
  unfold UnpinPage
  cases hfind : PageTable.Find s.page_table_ p with
  | none => exact H
  | some f =>
    have hf := H.table_lt p f hfind
    -- the state before the dirty flag is looked at
    have hr : ∀ r : Bool × BufferPoolManager,
        r = (if (s.page f).pin_count_ > 0 then
          if ((s.setPage f { s.page f with pin_count_ := (s.page f).pin_count_ - 1 }).page f).pin_count_ = 0 then
            (true, { s.setPage f { s.page f with pin_count_ := (s.page f).pin_count_ - 1 } with
              replacer_ := (s.setPage f { s.page f with pin_count_ := (s.page f).pin_count_ - 1 }).replacer_.Insert f })
          else
            (true, s.setPage f { s.page f with pin_count_ := (s.page f).pin_count_ - 1 })
        else (false, s)) →
        Inv r.2 ∧ r.2.page_table_ = s.page_table_ := by
      intro r hr
      subst hr
      split
      · split
        · exact ⟨inv_setPage_insert H p f _ hfind rfl, rfl⟩
        · next hpos hnz =>
          refine ⟨inv_setPage H f _ hf rfl ?_, rfl⟩
          intro h0
          rw [page_setPage s f f _ hf] at hnz
          simp only [if_true] at hnz
          exact absurd h0 hnz
      · exact ⟨H, rfl⟩
    obtain ⟨hI, ht⟩ := hr _ rfl
    simp only []
    split
    · refine inv_setPage hI f _ (hI.table_lt p f (by rw [ht]; exact hfind)) rfl (fun h => h)
    · exact hI

theorem delete_pinned (s : BufferPoolManager) (p : page_id_t) (f : Nat)
    (h : PageTable.Find s.page_table_ p = some f) (hpin : (s.page f).pin_count_ > 0) :
    s.DeletePage p = (false, s) := by
  unfold DeletePage
  rw [h]
  simp only [hpin, if_true]

theorem delete_miss (s : BufferPoolManager) (p : page_id_t)
    (h : PageTable.Find s.page_table_ p = none) : s.DeletePage p = (false, s) := by
  unfold DeletePage
  rw [h]

/-- With the invariant, deleting a resident page nobody pins takes neither of
the two error branches. -/
theorem delete_ok {s : BufferPoolManager} (H : Inv s) (p : page_id_t) (f : Nat)
    (h : PageTable.Find s.page_table_ p = some f) (hpin : (s.page f).pin_count_ = 0) :
    s.DeletePage p = (true, s.afterDelete p f) := by
  have hq : f ∈ s.replacer_.map_ := (LRUReplacer.wf_mem_iff H.wf f).2 (H.pin0 p f h hpin)
  unfold DeletePage afterDelete
  rw [h]
  have h0 : ¬ (s.page f).pin_count_ > 0 := by omega
  simp only [h0, if_false, PageTable.Remove, h, Option.isSome_some, LRUReplacer.Erase, hq,
    if_true, Page.ResetMemory]

theorem inv_afterDelete {s : BufferPoolManager} (H : Inv s) (p : page_id_t) (f : Nat)
    (h : PageTable.Find s.page_table_ p = some f) : Inv (s.afterDelete p f) := by
  have hf := H.table_lt p f h
  have hidf := H.table_id p f h
  have hpv : p ≠ INVALID_PAGE_ID := by
    intro e; rw [e, H.table_valid] at h; cases h
  have hlen : (s.afterDelete p f).pages_.length = s.pages_.length := by simp [afterDelete]
  have hpage : ∀ g, (s.afterDelete p f).page g =
      if g = f then
        { data_ := zeroData, page_id_ := INVALID_PAGE_ID, pin_count_ := 0, is_dirty_ := false }
      else s.page g := fun g => page_set s f g _ hf
  have hfind : ∀ q, PageTable.Find (s.afterDelete p f).page_table_ q =
      if q = p then none else PageTable.Find s.page_table_ q := fun q => find_filter _ p q
  have hmem : ∀ g, g ∈ (s.afterDelete p f).replacer_.queue_ ↔ g ≠ f ∧ g ∈ s.replacer_.queue_ :=
    fun g => List.Nodup.mem_erase_iff H.wf.1
  have hfree : ∀ g, g ∈ (s.afterDelete p f).free_list_ ↔ g ∈ s.free_list_ ∨ g = f := by
    intro g; simp [afterDelete]
  have hnotfree : f ∉ s.free_list_ := by
    intro hm
    have := H.free_invalid f hm
    rw [hidf] at this
    exact hpv this
  -- an entry of another page points to another frame
  have hother : ∀ q g, q ≠ p → PageTable.Find s.page_table_ q = some g → g ≠ f := by
    intro q g hq hg e
    subst e
    exact hq ((H.table_id q g hg).symm.trans hidf)
  -- the entry of a resident frame other than `f` survives
  have hkeep : ∀ g, g ≠ f → PageTable.Find s.page_table_ (s.page g).page_id_ = some g →
      PageTable.Find (s.afterDelete p f).page_table_ (s.page g).page_id_ = some g := by
    intro g hgf hg
    rw [hfind]
    have : (s.page g).page_id_ ≠ p := by
      intro e; rw [e, h] at hg; cases hg; exact hgf rfl
    simp [this, hg]
  refine ⟨hlen.trans H.len, ⟨H.wf.1.erase f, H.wf.2.erase f⟩, ?_, ?_, ?_, ?_, ?_, ?_, ?_, ?_,
    ?_, ?_⟩
  · intro g hg
    rw [hlen]
    rcases (hfree g).1 hg with hg | e
    · exact H.free_lt g hg
    · rw [e]; exact hf
  · show (s.free_list_ ++ [f]).Nodup
    rw [List.nodup_append]
    refine ⟨H.free_nodup, List.nodup_singleton f, ?_⟩
    intro a ha hb
    simp only [List.mem_singleton] at hb
    subst hb
    exact hnotfree ha
  · intro g hg
    rw [hpage]
    split
    · rfl
    · rcases (hfree g).1 hg with hg | e
      · exact H.free_invalid g hg
      · next hne => exact absurd e hne
  · exact keys_filter_nodup _ _ H.table_keys
  · intro q g hg
    rw [hlen]
    rw [hfind] at hg
    split at hg
    · cases hg
    · exact H.table_lt q g hg
  · intro q g hg
    rw [hfind] at hg
    split at hg
    · cases hg
    · next hq =>
      rw [hpage]
      simp only [hother q g hq hg, if_false]
      exact H.table_id q g hg
  · rw [hfind]
    have hne : ¬ INVALID_PAGE_ID = p := fun e => hpv e.symm
    rw [if_neg hne]
    exact H.table_valid
  · intro g hg
    obtain ⟨hgf, hg⟩ := (hmem g).1 hg
    rw [hpage]
    simp only [hgf, if_false]
    exact hkeep g hgf (H.repl_res g hg)
  · intro q g hg hp
    rw [hfind] at hg
    split at hg
    · cases hg
    · next hq =>
      have hgf := hother q g hq hg
      rw [hpage] at hp
      simp only [hgf, if_false] at hp
      exact (hmem g).2 ⟨hgf, H.pin0 q g hg hp⟩
  · intro g hg
    rw [hlen] at hg
    by_cases hgf : g = f
    · exact Or.inl ((hfree g).2 (Or.inr hgf))
    · rcases H.cover g hg with hc | hc
      · exact Or.inl ((hfree g).2 (Or.inl hc))
      · right
        rw [hpage]
        simp only [hgf, if_false]
        exact hkeep g hgf hc

theorem inv_delete {s : BufferPoolManager} (H : Inv s) (p : page_id_t) :
    Inv (s.DeletePage p).2 := by
  cases hfind : PageTable.Find s.page_table_ p with
  | none => rw [delete_miss s p hfind]; exact H
  | some f =>
    by_cases hpin : (s.page f).pin_count_ > 0
    · rw [delete_pinned s p f hfind hpin]; exact H
    · rw [delete_ok H p f hfind (by omega)]
      exact inv_afterDelete H p f hfind

theorem inv_step {s : BufferPoolManager} (H : Inv s) (c : Call) (hc : c.ok s) :
    Inv (s.step c) := by
  cases c with
  | fetch p => exact inv_fetch H p hc
  | unpin p d => exact inv_unpin H p d
  | flush p => exact inv_flush H p
  | delete p => exact inv_delete H p
  | allocate p => exact inv_newPage H p hc.1 hc.2

theorem reachable_inv {s : BufferPoolManager} (h : Reachable s) : Inv s := by
  induction h with
  | init n d => exact inv_new n d
  | step c _ hc ih => exact inv_step ih c hc

/-- C1 (code at the failing input): on a pool of one frame, after `FetchPage(1)`,
`UnpinPage(1, false)`, `FetchPage(1)` the state is reachable, the free list is
empty and the only resident frame, frame 0, has pin count 1; yet `getFreePage`
does not fail, and both `FetchPage(2)` and `NewPage` (handed id 2) reuse frame 0
and drop page 1 from the page table. -/
theorem fetch_reuses_pinned_frame :
    Reachable pinnedInReplacer ∧
    pinnedInReplacer.free_list_ = [] ∧
    PageTable.Find pinnedInReplacer.page_table_ 1 = some 0 ∧
    (pinnedInReplacer.page 0).pin_count_ = 1 ∧
    PageTable.Find pinnedInReplacer.page_table_ 2 = none ∧
    pinnedInReplacer.getFreePage.1 = some 0 ∧
    (pinnedInReplacer.FetchPage 2).1 = some 0 ∧
    PageTable.Find (pinnedInReplacer.FetchPage 2).2.page_table_ 1 = none ∧
    (pinnedInReplacer.NewPage 2).1 = some 0 ∧
    PageTable.Find (pinnedInReplacer.NewPage 2).2.2.page_table_ 1 = none := by
  refine ⟨?_, by decide, by decide, by decide, by decide, by decide, by decide, by decide,
    by decide, by decide⟩
  exact Reachable.step (Call.fetch 1)
    (Reachable.step (Call.unpin 1 false)
      (Reachable.step (Call.fetch 1) (Reachable.init 1 DiskManager.blank) (by decide))
      (by decide))
    (by decide)

/-- C2 (code at the failing input): on a pool of one frame, after `FetchPage(1)`,
`UnpinPage(1, false)`, `FetchPage(1)` the state is reachable and frame 0 is in
the replacer, in its queue and in its index, although it is resident with pin
count 1. -/
theorem pinned_frame_in_replacer :
    Reachable pinnedInReplacer ∧
    0 ∈ pinnedInReplacer.replacer_.queue_ ∧
    0 ∈ pinnedInReplacer.replacer_.map_ ∧
    PageTable.Find pinnedInReplacer.page_table_ 1 = some 0 ∧
    (pinnedInReplacer.page 0).pin_count_ = 1 := by
  refine ⟨?_, by decide, by decide, by decide, by decide⟩
  exact Reachable.step (Call.fetch 1)
    (Reachable.step (Call.unpin 1 false)
      (Reachable.step (Call.fetch 1) (Reachable.init 1 DiskManager.blank) (by decide))
      (by decide))
    (by decide)

theorem unpin_miss (s : BufferPoolManager) (p : page_id_t) (d : Bool)
    (h : PageTable.Find s.page_table_ p = none) : s.UnpinPage p d = (false, s) := by
  unfold UnpinPage
  rw [h]

/-- `UnpinPage` on a resident page whose pin count is already zero. -/
theorem unpin_zero (s : BufferPoolManager) (p : page_id_t) (d : Bool) (f : Nat)
    (h : PageTable.Find s.page_table_ p = some f) (hpin : (s.page f).pin_count_ = 0) :
    s.UnpinPage p d =
      (false, if d then s.setPage f { s.page f with is_dirty_ := true } else s) := by
  unfold UnpinPage
  rw [h]
  have h0 : ¬ (s.page f).pin_count_ > 0 := by omega
  simp only [h0, if_false]
  split <;> rfl

/-- `UnpinPage` on a resident, pinned page. -/
theorem unpin_pos (s : BufferPoolManager) (p : page_id_t) (d : Bool) (f : Nat)
    (h : PageTable.Find s.page_table_ p = some f) (hf : f < s.pages_.length)
    (hpin : (s.page f).pin_count_ > 0) :
    s.UnpinPage p d =
      (true,
        { s with
          pages_ := s.pages_.set f
            { s.page f with pin_count_ := (s.page f).pin_count_ - 1,
                            is_dirty_ := (s.page f).is_dirty_ || d },
          replacer_ :=
            if (s.page f).pin_count_ = 1 then s.replacer_.Insert f else s.replacer_ }) := by
  unfold UnpinPage
  rw [h]
  have hp1 : (s.setPage f { s.page f with pin_count_ := (s.page f).pin_count_ - 1 }).page f
      = { s.page f with pin_count_ := (s.page f).pin_count_ - 1 } := by
    rw [page_setPage s f f _ hf]; simp
  simp only [hpin, if_true, hp1]
  by_cases h1 : (s.page f).pin_count_ = 1
  · have hz : (s.page f).pin_count_ - 1 = 0 := by omega
    simp only [hz, h1, if_true]
    cases d
    · simp [setPage]
    · simp only [if_true, setPage, page, List.set_set, Bool.or_true]
      congr 2
      simp [List.getD_eq_getElem?_getD, List.getElem?_set, hf]
  · have hz : ¬ (s.page f).pin_count_ - 1 = 0 := by omega
    simp only [hz, h1, if_false]
    cases d
    · simp [setPage]
    · simp only [if_true, setPage, page, List.set_set, Bool.or_true]
      congr 2
      simp [List.getD_eq_getElem?_getD, List.getElem?_set, hf]

/-- C7: `UnpinPage`. In every reachable state, `UnpinPage(p, d)` returns false
if and only if `p` is not resident or the pin count of its frame is already
zero; otherwise it returns true, the pin count of the frame drops by exactly 1,
and the frame is handed to the replacer (`Insert`, which puts it at the
most-recent end of the queue) exactly when the new pin count is zero, the
replacer being unchanged otherwise. In all cases the page table, the free
list, the bytes and page id of every frame, every frame other than the one of
`p`, and durable storage (content and call log) are unchanged. -/
theorem unpin_spec (s : BufferPoolManager) (p : page_id_t) (d : Bool) (hs : Reachable s) :
    ((s.UnpinPage p d).1 = false ↔
      (PageTable.Find s.page_table_ p = none ∨
        ∃ f, PageTable.Find s.page_table_ p = some f ∧ (s.page f).pin_count_ = 0)) ∧
    (∀ f, PageTable.Find s.page_table_ p = some f → (s.page f).pin_count_ > 0 →
      (s.UnpinPage p d).1 = true ∧
      ((s.UnpinPage p d).2.page f).pin_count_ + 1 = (s.page f).pin_count_ ∧
      (((s.UnpinPage p d).2.page f).pin_count_ = 0 →
        (s.UnpinPage p d).2.replacer_ = s.replacer_.Insert f ∧
        (s.UnpinPage p d).2.replacer_.queue_.getLast? = some f) ∧
      (((s.UnpinPage p d).2.page f).pin_count_ ≠ 0 →
        (s.UnpinPage p d).2.replacer_ = s.replacer_)) ∧
    ((s.UnpinPage p d).1 = false → (s.UnpinPage p d).2.replacer_ = s.replacer_) ∧
    (s.UnpinPage p d).2.page_table_ = s.page_table_ ∧
    (s.UnpinPage p d).2.free_list_ = s.free_list_ ∧
    (s.UnpinPage p d).2.disk_manager_ = s.disk_manager_ ∧
    (s.UnpinPage p d).2.pool_size_ = s.pool_size_ ∧
    (∀ g, ((s.UnpinPage p d).2.page g).data_ = (s.page g).data_) ∧
    (∀ g, ((s.UnpinPage p d).2.page g).page_id_ = (s.page g).page_id_) ∧
    (∀ g, PageTable.Find s.page_table_ p ≠ some g → (s.UnpinPage p d).2.page g = s.page g) := by
  have H := reachable_inv hs
  cases hfind : PageTable.Find s.page_table_ p with
  | none =>
    rw [unpin_miss s p d hfind]
    simp
  | some f =>
    have hf := H.table_lt p f hfind
    by_cases hpin : (s.page f).pin_count_ > 0
    · rw [unpin_pos s p d f hfind hf hpin]
      have hpg : ∀ g, BufferPoolManager.page
          { s with
            pages_ := s.pages_.set f
              { s.page f with pin_count_ := (s.page f).pin_count_ - 1,
                              is_dirty_ := (s.page f).is_dirty_ || d },
            replacer_ :=
              if (s.page f).pin_count_ = 1 then s.replacer_.Insert f else s.replacer_ } g
          = if g = f then
              { s.page f with pin_count_ := (s.page f).pin_count_ - 1,
                              is_dirty_ := (s.page f).is_dirty_ || d }
            else s.page g := fun g => page_set s f g _ hf
      refine ⟨?_, ?_, ?_, rfl, rfl, rfl, rfl, ?_, ?_, ?_⟩
      · simp only [Bool.true_eq_false, false_iff, not_or, not_exists, not_and]
        refine ⟨by simp, ?_⟩
        intro g hg
        cases hg
        omega
      · intro g hg _
        have e : g = f := (Option.some.inj hg).symm
        rw [e, hpg, if_pos rfl]
        refine ⟨rfl, ?_, ?_, ?_⟩
        · show (s.page f).pin_count_ - 1 + 1 = (s.page f).pin_count_
          omega
        · intro hz
          have h1 : (s.page f).pin_count_ = 1 := by
            have : (s.page f).pin_count_ - 1 = 0 := hz
            omega
          refine ⟨if_pos h1, ?_⟩
          show (if (s.page f).pin_count_ = 1 then s.replacer_.Insert f
            else s.replacer_).queue_.getLast? = some f
          rw [if_pos h1, LRUReplacer.wf_insert_eq H.wf]
          simp
        · intro hz
          have h1 : ¬ (s.page f).pin_count_ = 1 := by
            have : ¬ (s.page f).pin_count_ - 1 = 0 := hz
            omega
          exact if_neg h1
      · intro h; cases h
      · intro g
        rw [hpg]
        split
        · next e => rw [e]
        · rfl
      · intro g
        rw [hpg]
        split
        · next e => rw [e]
        · rfl
      · intro g hg
        rw [hpg]
        have : g ≠ f := fun e => hg (by rw [e])
        simp only [this, if_false]
    · have h0 : (s.page f).pin_count_ = 0 := by omega
      rw [unpin_zero s p d f hfind h0]
      have hpg : ∀ g, (if d then s.setPage f { s.page f with is_dirty_ := true } else s).page g
          = if g = f then { s.page f with is_dirty_ := (s.page f).is_dirty_ || d }
            else s.page g := by
        intro g
        cases d
        · simp only [Bool.false_eq_true, if_false, Bool.or_false]
          split
          · next e => rw [e]
          · rfl
        · simp only [if_true, Bool.or_true]
          exact page_setPage s f g _ hf
      have hsame : ∀ (F : BufferPoolManager → List Nat),
          (∀ g pg, F (s.setPage g pg) = F s) →
          F (if d then s.setPage f { s.page f with is_dirty_ := true } else s) = F s := by
        intro F hF
        cases d
        · rfl
        · exact hF _ _
      refine ⟨?_, ?_, ?_, ?_, hsame (fun t => t.free_list_) (fun _ _ => rfl), ?_, ?_, ?_, ?_, ?_⟩
      · simp only [true_iff]
        exact Or.inr ⟨f, rfl, h0⟩
      · intro g hg hp
        cases hg
        omega
      · intro _
        cases d <;> rfl
      · cases d <;> rfl
      · cases d <;> rfl
      · cases d <;> rfl
      · intro g
        rw [hpg]
        split
        · next e => rw [e]
        · rfl
      · intro g
        rw [hpg]
        split
        · next e => rw [e]
        · rfl
      · intro g hg
        rw [hpg]
        have : g ≠ f := fun e => hg (by rw [e])
        simp only [this, if_false]

/-- Witness of `unpin_spec`: unpinning page 1 right after it was fetched into a
pool of one frame. -/
theorem unpin_spec_witness :
    (((new 1 DiskManager.blank).step (Call.fetch 1)).UnpinPage 1 false).1 = true ∧
    (((new 1 DiskManager.blank).step (Call.fetch 1)).UnpinPage 1 false).2.replacer_.queue_
      = [0] :=
  ⟨((unpin_spec ((new 1 DiskManager.blank).step (Call.fetch 1)) 1 false
      (Reachable.step (Call.fetch 1) (Reachable.init 1 DiskManager.blank) (by decide))).2.1 0
      (by decide) (by decide)).1,
   by decide⟩

theorem content_write_ne (d : DiskManager) (q p : page_id_t) (data : List Nat) (h : q ≠ p) :
    (d.WritePage q data).content p = d.content p := by
  have hfind : ∀ l : List (page_id_t × List Nat),
      (l.filter (fun e => e.1 ≠ q)).find? (fun e => e.1 = p) = l.find? (fun e => e.1 = p) := by
    intro l
    induction l with
    | nil => rfl
    | cons e l ih =>
      obtain ⟨a, v⟩ := e
      by_cases ha : a = q
      · have hap : ¬ a = p := fun e2 => h (ha.symm.trans e2)
        rw [List.filter_cons, List.find?_cons]
        simp only [ha, ne_eq, not_true_eq_false, decide_False, Bool.false_eq_true, if_false]
        have hqp : decide (q = p) = false := by simpa using h
        rw [hqp]
        exact ih
      · rw [List.filter_cons]
        simp only [ha, ne_eq, not_false_eq_true, decide_True, if_true]
        rw [List.find?_cons, List.find?_cons, ih]
  unfold DiskManager.content DiskManager.WritePage
  simp only [List.find?, h, decide_False]
  rw [hfind]

/-- The frame `getFreePage` hands out on a miss of `p` does not hold `p`. -/
theorem victim_id_ne {s s1 : BufferPoolManager} {f : Nat} {p : page_id_t} (H : Inv s)
    (hp : p ≠ INVALID_PAGE_ID) (hmiss : PageTable.Find s.page_table_ p = none)
    (hg : s.getFreePage = (some f, s1)) : (s.page f).page_id_ ≠ p := by
  have hP := (getFreePage_pre H hg)
  have hpage : s1.page f = s.page f := by unfold page; rw [hP.2.1]
  rcases hP.1.f_state with h | h
  · rw [hpage] at h; rw [h]; exact fun e => hp e.symm
  · rw [hpage, hP.2.2] at h
    intro e
    rw [e, hmiss] at h
    cases h

/-- What storage holds for `p` is not touched by `getFreePage` on a miss of `p`. -/
theorem getFreePage_content {s s1 : BufferPoolManager} {f : Nat} {p : page_id_t} (H : Inv s)
    (hp : p ≠ INVALID_PAGE_ID) (hmiss : PageTable.Find s.page_table_ p = none)
    (hg : s.getFreePage = (some f, s1)) :
    s1.disk_manager_.content p = s.disk_manager_.content p := by
  have hne := victim_id_ne H hp hmiss hg
  rcases getFreePage_cases H with ⟨g, rest, hfl, hg2⟩ | ⟨g, rest, hfl, hq, hg2⟩ | ⟨_, _, hg2⟩
  · rw [hg2] at hg; cases hg; rfl
  · rw [hg2] at hg; cases hg
    show (if (s.page f).is_dirty_ then _ else _ : DiskManager).content p = _
    split
    · exact content_write_ne _ _ _ _ hne
    · rfl
  · rw [hg2] at hg; cases hg

/-- The state after a fetch miss that obtained frame `f`. -/
theorem fetch_miss_spec {s : BufferPoolManager} {p : page_id_t} {f : Nat} (H : Inv s)
    (hp : p ≠ INVALID_PAGE_ID) (hmiss : PageTable.Find s.page_table_ p = none)
    (hf : (s.FetchPage p).1 = some f) :
    f < s.pages_.length ∧
    (s.FetchPage p).2.page f =
      { data_ := s.disk_manager_.content p, page_id_ := p, pin_count_ := 1,
        is_dirty_ := false } ∧
    (∀ g, g ≠ f → (s.FetchPage p).2.page g = s.page g) ∧
    (∀ q, PageTable.Find (s.FetchPage p).2.page_table_ q =
      if q = p then some f
      else if q = (s.page f).page_id_ then none
      else PageTable.Find s.page_table_ q) ∧
    (s.page f).page_id_ ≠ p ∧
    (s.FetchPage p).2.disk_manager_.content p = s.disk_manager_.content p := by
  cases hgf : s.getFreePage with
  | mk o s1 =>
    cases o with
    | none => rw [fetch_fail s s1 p hmiss hgf] at hf; cases hf
    | some g =>
      have hP := getFreePage_pre H hgf
      have hc := getFreePage_content H hp hmiss hgf
      have hne := victim_id_ne H hp hmiss hgf
      rw [fetch_miss s s1 p g hmiss hgf] at hf ⊢
      cases hf
      have hlt : f < s1.pages_.length := hP.1.f_lt
      have hlt2 : f < (s1.initAndPinPage (some f) p).pages_.length := by
        show f < (s1.pages_.set f _).length
        simpa using hlt
      have hpage1 : ∀ g, s1.page g = s.page g := fun g => by unfold page; rw [hP.2.1]
      have hpg : ∀ g, BufferPoolManager.page
          { s1.initAndPinPage (some f) p with
            pages_ := (s1.initAndPinPage (some f) p).pages_.set f
              { (s1.initAndPinPage (some f) p).page f with
                data_ := (s1.initAndPinPage (some f) p).disk_manager_.content p },
            disk_manager_ := ((s1.initAndPinPage (some f) p).disk_manager_.ReadPage p).2 } g
          = if g = f then
              { (s1.initAndPinPage (some f) p).page f with
                data_ := (s1.initAndPinPage (some f) p).disk_manager_.content p }
            else (s1.initAndPinPage (some f) p).page g :=
        fun g => page_set (s1.initAndPinPage (some f) p) f g _ hlt2
      have hd : (s1.initAndPinPage (some f) p).disk_manager_ = s1.disk_manager_ := rfl
      refine ⟨by rw [← hP.2.1]; exact hlt, ?_, ?_, ?_, hne, ?_⟩
      · rw [hpg, if_pos rfl, page_install s1 f f p hlt, if_pos rfl, hd, hc]
      · intro g hg
        rw [hpg, if_neg hg, page_install s1 f g p hlt, if_neg hg, hpage1]
      · intro q
        show PageTable.Find (s1.initAndPinPage (some f) p).page_table_ q = _
        rw [find_install, hpage1, hP.2.2]
      · show ((s1.initAndPinPage (some f) p).disk_manager_.ReadPage p).2.content p = _
        rw [hd, ← hc]
        rfl

theorem held_fetch {p : page_id_t} {f j : Nat} {data : List Nat} {d : DiskManager}
    {t : BufferPoolManager} (h : Held p f j data d t) :
    (t.FetchPage p).1 = some f ∧ Held p f (j + 1) data d (t.FetchPage p).2 := by
  have hf := h.inv.table_lt p f h.res
  rw [fetch_hit t p f h.res]
  refine ⟨rfl, inv_setPage h.inv f _ hf rfl (fun e => by simp at e), h.res, ?_, ?_, h.disk⟩
  · rw [page_setPage t f f _ hf, if_pos rfl]
    show (t.page f).pin_count_ + 1 = j + 1
    rw [h.pin]
  · rw [page_setPage t f f _ hf, if_pos rfl]
    exact h.bytes

theorem held_unpin {p : page_id_t} {f j : Nat} {data : List Nat} {d : DiskManager}
    {t : BufferPoolManager} (h : Held p f (j + 1) data d t) :
    (t.UnpinPage p false).1 = true ∧ Held p f j data d (t.UnpinPage p false).2 ∧
    (j = 0 → f ∈ (t.UnpinPage p false).2.replacer_.queue_) := by
  have hf := h.inv.table_lt p f h.res
  have hpos : (t.page f).pin_count_ > 0 := by rw [h.pin]; omega
  have hI := inv_unpin h.inv p false
  rw [unpin_pos t p false f h.res hf hpos] at hI ⊢
  have hpg : BufferPoolManager.page
      { t with
        pages_ := t.pages_.set f
          { t.page f with pin_count_ := (t.page f).pin_count_ - 1,
                          is_dirty_ := (t.page f).is_dirty_ || false },
        replacer_ :=
          if (t.page f).pin_count_ = 1 then t.replacer_.Insert f else t.replacer_ } f
      = { t.page f with pin_count_ := (t.page f).pin_count_ - 1,
                        is_dirty_ := (t.page f).is_dirty_ || false } := by
    have := page_set t f f
      { t.page f with pin_count_ := (t.page f).pin_count_ - 1,
                      is_dirty_ := (t.page f).is_dirty_ || false } hf
    rw [if_pos rfl] at this
    exact this
  refine ⟨rfl, ⟨hI, h.res, ?_, ?_, h.disk⟩, ?_⟩
  · rw [hpg]
    show (t.page f).pin_count_ - 1 = j
    rw [h.pin]; omega
  · rw [hpg]; exact h.bytes
  · intro hj
    have h1 : (t.page f).pin_count_ = 1 := by rw [h.pin, hj]
    show f ∈ (if (t.page f).pin_count_ = 1 then t.replacer_.Insert f else t.replacer_).queue_
    rw [if_pos h1]
    exact (mem_insert_queue h.inv.wf f f).2 (Or.inl rfl)

theorem held_unpin_zero {p : page_id_t} {f : Nat} {data : List Nat} {d : DiskManager}
    {t : BufferPoolManager} (h : Held p f 0 data d t) :
    (t.UnpinPage p false).1 = false := by
  rw [unpin_zero t p false f h.res h.pin]

theorem held_fetches {p : page_id_t} {f j : Nat} {data : List Nat} {d : DiskManager}
    {t : BufferPoolManager} (h : Held p f j data d t) (n : Nat) :
    Held p f (j + n) data d (t.fetches p n) := by
  induction n with
  | zero => exact h
  | succ n ih =>
    have := (held_fetch ih).2
    unfold fetches at this ⊢
    rw [Function.iterate_succ_apply']
    exact this

theorem held_unpins {p : page_id_t} {f : Nat} {data : List Nat} {d : DiskManager}
    {t : BufferPoolManager} (n j : Nat) (h : Held p f (j + n) data d t) :
    Held p f j data d (t.unpins p n) := by
  induction n generalizing j with
  | zero => exact h
  | succ n ih =>
    have h1 : Held p f (j + 1) data d (t.unpins p n) := ih (j + 1) (by
      have e : j + 1 + n = j + (n + 1) := by omega
      rw [e]; exact h)
    have := (held_unpin h1).2.1
    unfold unpins at this ⊢
    rw [Function.iterate_succ_apply']
    exact this

/-- The state right after a fetch miss holds the page with pin count 1. -/
theorem held_first {s : BufferPoolManager} {p : page_id_t} {f : Nat} (H : Inv s)
    (hp : p ≠ INVALID_PAGE_ID) (hmiss : PageTable.Find s.page_table_ p = none)
    (hf : (s.FetchPage p).1 = some f) :
    Held p f 1 (s.disk_manager_.content p) (s.FetchPage p).2.disk_manager_ (s.FetchPage p).2 := by
  obtain ⟨_, hpg, _, hfind, _, _⟩ := fetch_miss_spec H hp hmiss hf
  refine ⟨inv_fetch H p hp, ?_, ?_, ?_, rfl⟩
  · rw [hfind, if_pos rfl]
  · rw [hpg]
  · rw [hpg]

/-- C8: pin counts are reference counts. In every reachable state `t`, a
`FetchPage` of a resident page `q` returns the frame holding it, raises the pin
count of that frame by exactly 1 and changes nothing else: no call reaches
durable storage and no frame's bytes change. So when `FetchPage(p)` misses in a
reachable state `s` and obtains frame `f`, then after `k >= 1` calls
`FetchPage(p)`, all of which return `f`, exactly the next `k` calls
`UnpinPage(p, false)` return true and the one after returns false; after the
`k`-th, `p` is still resident in `f`, with pin count 0, `f` is in the replacer,
and its bytes are what durable storage held for `p` when it was fetched. -/
theorem pin_refcount (s t : BufferPoolManager) (p q : page_id_t) (f g k : Nat)
    (hs : Reachable s) (hp : p ≠ INVALID_PAGE_ID)
    (hmiss : PageTable.Find s.page_table_ p = none)
    (hf : (s.FetchPage p).1 = some f) (hk : 1 ≤ k)
    (ht : Reachable t) (hres : PageTable.Find t.page_table_ q = some g) :
    ((t.FetchPage q).1 = some g ∧
      ((t.FetchPage q).2.page g).pin_count_ = (t.page g).pin_count_ + 1 ∧
      (t.FetchPage q).2.disk_manager_ = t.disk_manager_ ∧
      (∀ x, ((t.FetchPage q).2.page x).data_ = (t.page x).data_) ∧
      (∀ x, x ≠ g → (t.FetchPage q).2.page x = t.page x) ∧
      (t.FetchPage q).2.page_table_ = t.page_table_ ∧
      (t.FetchPage q).2.free_list_ = t.free_list_) ∧
    (∀ j, j < k → ((s.fetches p j).FetchPage p).1 = some f) ∧
    (∀ j, j < k → (((s.fetches p k).unpins p j).UnpinPage p false).1 = true) ∧
    (((s.fetches p k).unpins p k).UnpinPage p false).1 = false ∧
    PageTable.Find ((s.fetches p k).unpins p k).page_table_ p = some f ∧
    (((s.fetches p k).unpins p k).page f).pin_count_ = 0 ∧
    f ∈ ((s.fetches p k).unpins p k).replacer_.queue_ ∧
    f ∈ ((s.fetches p k).unpins p k).replacer_.map_ ∧
    (((s.fetches p k).unpins p k).page f).data_ = s.disk_manager_.content p ∧
    ((s.fetches p k).unpins p k).disk_manager_ = (s.FetchPage p).2.disk_manager_ ∧
    ((s.fetches p k).unpins p k).disk_manager_.content p = s.disk_manager_.content p := by
  have H := reachable_inv hs
  have Ht := reachable_inv ht
  have h1 := held_first H hp hmiss hf
  -- the state after `n + 1` fetches
  have hfe : ∀ n, Held p f (1 + n) (s.disk_manager_.content p) (s.FetchPage p).2.disk_manager_
      (s.fetches p (n + 1)) := by
    intro n
    have := held_fetches h1 n
    unfold fetches at this ⊢
    rw [Function.iterate_succ_apply]
    exact this
  obtain ⟨m, rfl⟩ : ∃ m, k = m + 1 := ⟨k - 1, by omega⟩
  -- the state after `j` of the unpins
  have hun : ∀ j i, j + i = m + 1 →
      Held p f i (s.disk_manager_.content p) (s.FetchPage p).2.disk_manager_
        ((s.fetches p (m + 1)).unpins p j) := by
    intro j i hji
    apply held_unpins j i
    have e : i + j = 1 + m := by omega
    rw [e]
    exact hfe m
  have hlast := hun (m + 1) 0 (by omega)
  refine ⟨?_, ?_, ?_, held_unpin_zero hlast, hlast.res, hlast.pin, ?_, ?_, hlast.bytes,
    hlast.disk, ?_⟩
  · have hg := Ht.table_lt q g hres
    rw [fetch_hit t q g hres]
    refine ⟨rfl, ?_, rfl, ?_, ?_, rfl, rfl⟩
    · rw [page_setPage t g g _ hg, if_pos rfl]
    · intro x
      rw [page_setPage t g x _ hg]
      split
      · next e => rw [e]
      · rfl
    · intro x hx
      rw [page_setPage t g x _ hg, if_neg hx]
  · intro j hj
    cases j with
    | zero => exact hf
    | succ j => exact (held_fetch (hfe j)).1
  · intro j hj
    have := hun j (m - j + 1) (by omega)
    exact (held_unpin this).1
  · have hprev := hun m 1 (by omega)
    have := (held_unpin hprev).2.2 rfl
    unfold unpins at this ⊢
    rw [Function.iterate_succ_apply']
    exact this
  · have hprev := hun m 1 (by omega)
    have hq := (held_unpin hprev).2.2 rfl
    have hI := (held_unpin hprev).2.1.inv
    have := (LRUReplacer.wf_mem_iff hI.wf f).2 hq
    unfold unpins at this ⊢
    rw [Function.iterate_succ_apply']
    exact this
  · rw [hlast.disk]
    exact (fetch_miss_spec H hp hmiss hf).2.2.2.2.2

/-- Witness of `pin_refcount`: page 7 fetched twice into a fresh pool of two
frames, and a further hit on it. -/
theorem pin_refcount_witness :
    ((((new 2 DiskManager.blank).fetches 7 2).unpins 7 0).UnpinPage 7 false).1 = true ∧
    ((((new 2 DiskManager.blank).fetches 7 2).unpins 7 1).UnpinPage 7 false).1 = true ∧
    ((((new 2 DiskManager.blank).fetches 7 2).unpins 7 2).UnpinPage 7 false).1 = false ∧
    0 ∈ (((new 2 DiskManager.blank).fetches 7 2).unpins 7 2).replacer_.queue_ :=
  have h := pin_refcount (new 2 DiskManager.blank) ((new 2 DiskManager.blank).step (Call.fetch 7))
    7 7 0 0 2 (Reachable.init 2 DiskManager.blank) (by decide) (by decide) (by decide)
    (by decide)
    (Reachable.step (Call.fetch 7) (Reachable.init 2 DiskManager.blank) (by decide))
    (by decide)
  ⟨h.2.2.1 0 (by decide), h.2.2.1 1 (by decide), h.2.2.2.1, h.2.2.2.2.2.2.1⟩

theorem newPage_some (s s1 : BufferPoolManager) (p : page_id_t) (f : Nat)
    (hg : BufferPoolManager.getFreePage
      { s with disk_manager_ := (s.disk_manager_.AllocatePage p).2 } = (some f, s1)) :
    s.NewPage p = (some f, p, s1.initAndPinPage (some f) p) := by
  unfold NewPage
  simp only [hg]
  rfl

theorem newPage_none (s s1 : BufferPoolManager) (p : page_id_t)
    (hg : BufferPoolManager.getFreePage
      { s with disk_manager_ := (s.disk_manager_.AllocatePage p).2 } = (none, s1)) :
    s.NewPage p = (none, p, s1) := by
  unfold NewPage
  simp only [hg]
  rfl

/-- The state after a `NewPage` that obtained frame `f` for the id `p`. -/
theorem newPage_spec {s : BufferPoolManager} {p : page_id_t} {f : Nat} (H : Inv s)
    (hp : p ≠ INVALID_PAGE_ID) (hmiss : PageTable.Find s.page_table_ p = none)
    (hf : (s.NewPage p).1 = some f) :
    (s.NewPage p).2.1 = p ∧
    (s.NewPage p).2.2.page f =
      { data_ := zeroData, page_id_ := p, pin_count_ := 1, is_dirty_ := false } ∧
    (∀ g, g ≠ f → (s.NewPage p).2.2.page g = s.page g) ∧
    (∀ q, PageTable.Find (s.NewPage p).2.2.page_table_ q =
      if q = p then some f
      else if q = (s.page f).page_id_ then none
      else PageTable.Find s.page_table_ q) ∧
    (s.page f).page_id_ ≠ p ∧
    ((s.NewPage p).2.2.disk_manager_.log = s.disk_manager_.log ++ [DiskEvent.allocate p] ∨
      (s.NewPage p).2.2.disk_manager_.log =
        s.disk_manager_.log ++ [DiskEvent.allocate p] ++
          [DiskEvent.write (s.page f).page_id_ (s.page f).data_]) := by
  have H0 : Inv { s with disk_manager_ := (s.disk_manager_.AllocatePage p).2 } :=
    inv_congr H rfl rfl rfl rfl rfl (fun _ => rfl) (fun _ => rfl)
  cases hgf : BufferPoolManager.getFreePage
      { s with disk_manager_ := (s.disk_manager_.AllocatePage p).2 } with
  | mk o s1 =>
    cases o with
    | none => rw [newPage_none s s1 p hgf] at hf; cases hf
    | some g =>
      have hP := getFreePage_pre H0 hgf
      have hne := victim_id_ne H0 hp hmiss hgf
      rw [newPage_some s s1 p g hgf] at hf ⊢
      cases hf
      have hlt : f < s1.pages_.length := hP.1.f_lt
      have hpage1 : ∀ g, s1.page g = s.page g := fun g => by
        unfold page; rw [hP.2.1]
      refine ⟨rfl, ?_, ?_, ?_, hne, ?_⟩
      · show (s1.initAndPinPage (some f) p).page f = _
        rw [page_install s1 f f p hlt, if_pos rfl]
      · intro g hg
        show (s1.initAndPinPage (some f) p).page g = _
        rw [page_install s1 f g p hlt, if_neg hg, hpage1]
      · intro q
        show PageTable.Find (s1.initAndPinPage (some f) p).page_table_ q = _
        rw [find_install, hpage1, hP.2.2]
      · show s1.disk_manager_.log = _ ∨ s1.disk_manager_.log = _
        rcases getFreePage_cases H0 with ⟨g, rest, hfl, hg2⟩ | ⟨g, rest, hfl, hq, hg2⟩ |
          ⟨_, _, hg2⟩
        · rw [hg2] at hgf; cases hgf; exact Or.inl rfl
        · rw [hg2] at hgf; cases hgf
          by_cases hd : (s.page f).is_dirty_ = true
          · right
            show (if (s.page f).is_dirty_ = true then _ else _ : DiskManager).log = _
            rw [if_pos hd]
            rfl
          · left
            show (if (s.page f).is_dirty_ = true then _ else _ : DiskManager).log = _
            rw [if_neg hd]
            rfl
        · rw [hg2] at hgf; cases hgf

/-- Installing a page in a frame taken from the free list leaves the entries of
all other pages alone. -/
theorem find_install_free {s : BufferPoolManager} (H : Inv s) {f : Nat} {rest : List Nat}
    (hfl : s.free_list_ = f :: rest) (p q : page_id_t) (hq : q ≠ p) :
    PageTable.Find
      (BufferPoolManager.initAndPinPage { s with free_list_ := rest } (some f) p).page_table_ q
      = PageTable.Find s.page_table_ q := by
  have hinv : (s.page f).page_id_ = INVALID_PAGE_ID :=
    H.free_invalid f (by rw [hfl]; simp)
  rw [find_install, if_neg hq]
  show (if q = (s.page f).page_id_ then none else PageTable.Find s.page_table_ q) = _
  rw [hinv]
  split
  · next e => rw [e, H.table_valid]
  · rfl

/-- C10: the free list always wins. In every reachable state whose free list is
`f :: rest`, a `FetchPage(p)` that misses and a `NewPage` handed the
non-resident id `p` both return frame `f`, leave `rest` as the free list, leave
the replacer unchanged, keep the page-table entry of every other page (no
resident page is evicted) and every other frame, and issue no write: durable
storage keeps its content and its log grows by the read of `p` alone
(`FetchPage`), by the allocation alone (`NewPage`). -/
theorem free_list_first (s : BufferPoolManager) (p : page_id_t) (f : Nat) (rest : List Nat)
    (hs : Reachable s) (hp : p ≠ INVALID_PAGE_ID)
    (hmiss : PageTable.Find s.page_table_ p = none) (hfl : s.free_list_ = f :: rest) :
    ((s.FetchPage p).1 = some f ∧
      (s.FetchPage p).2.free_list_ = rest ∧
      (s.FetchPage p).2.replacer_ = s.replacer_ ∧
      (∀ q, q ≠ p → PageTable.Find (s.FetchPage p).2.page_table_ q
        = PageTable.Find s.page_table_ q) ∧
      (∀ g, g ≠ f → (s.FetchPage p).2.page g = s.page g) ∧
      (s.FetchPage p).2.disk_manager_.store = s.disk_manager_.store ∧
      (s.FetchPage p).2.disk_manager_.log = s.disk_manager_.log ++ [DiskEvent.read p]) ∧
    ((s.NewPage p).1 = some f ∧
      (s.NewPage p).2.2.free_list_ = rest ∧
      (s.NewPage p).2.2.replacer_ = s.replacer_ ∧
      (∀ q, q ≠ p → PageTable.Find (s.NewPage p).2.2.page_table_ q
        = PageTable.Find s.page_table_ q) ∧
      (∀ g, g ≠ f → (s.NewPage p).2.2.page g = s.page g) ∧
      (s.NewPage p).2.2.disk_manager_.store = s.disk_manager_.store ∧
      (s.NewPage p).2.2.disk_manager_.log = s.disk_manager_.log ++ [DiskEvent.allocate p]) := by
  have H := reachable_inv hs
  have hf : f < s.pages_.length := H.free_lt f (by rw [hfl]; simp)
  constructor
  · have hg := getFreePage_free s f rest hfl
    have hfe := fetch_miss s _ p f hmiss hg
    have h1 : (s.FetchPage p).1 = some f := by rw [hfe]
    obtain ⟨_, _, hoth, _, _, _⟩ := fetch_miss_spec H hp hmiss h1
    refine ⟨h1, ?_, ?_, ?_, hoth, ?_, ?_⟩
    · rw [hfe]; rfl
    · rw [hfe]; rfl
    · intro q hq
      rw [hfe]
      exact find_install_free H hfl p q hq
    · rw [hfe]; rfl
    · rw [hfe]; rfl
  · have H0 : Inv { s with disk_manager_ := (s.disk_manager_.AllocatePage p).2 } :=
      inv_congr H rfl rfl rfl rfl rfl (fun _ => rfl) (fun _ => rfl)
    have hg := getFreePage_free
      { s with disk_manager_ := (s.disk_manager_.AllocatePage p).2 } f rest hfl
    have hne := newPage_some s _ p f hg
    have h1 : (s.NewPage p).1 = some f := by rw [hne]
    obtain ⟨_, _, hoth, _, _, _⟩ := newPage_spec H hp hmiss h1
    refine ⟨h1, ?_, ?_, ?_, hoth, ?_, ?_⟩
    · rw [hne]; rfl
    · rw [hne]; rfl
    · intro q hq
      rw [hne]
      exact find_install_free H0 hfl p q hq
    · rw [hne]; rfl
    · rw [hne]; rfl

/-- Witness of `free_list_first`: page 3 requested from a fresh pool of two frames. -/
theorem free_list_first_witness :
    ((new 2 DiskManager.blank).FetchPage 3).1 = some 0 ∧
    ((new 2 DiskManager.blank).FetchPage 3).2.free_list_ = [1] ∧
    ((new 2 DiskManager.blank).NewPage 3).1 = some 0 ∧
    ((new 2 DiskManager.blank).NewPage 3).2.2.free_list_ = [1] :=
  have h := free_list_first (new 2 DiskManager.blank) 3 0 [1]
    (Reachable.init 2 DiskManager.blank) (by decide) (by decide) (by decide)
  ⟨h.1.1, h.1.2.1, h.2.1, h.2.2.1⟩

theorem content_write_self (d : DiskManager) (p : page_id_t) (data : List Nat) :
    (d.WritePage p data).content p = data := by
  simp [DiskManager.content, DiskManager.WritePage, List.find?]

/-- A fetch miss with an empty free list that obtains frame `f` takes it from
the front of the replacer. -/
theorem fetch_victim {s : BufferPoolManager} {p : page_id_t} {f : Nat} (H : Inv s)
    (hmiss : PageTable.Find s.page_table_ p = none) (hfl : s.free_list_ = [])
    (hf : (s.FetchPage p).1 = some f) :
    s.replacer_.queue_.head? = some f ∧ s.getFreePage = (some f, s.afterVictim f) := by
  rcases getFreePage_cases H with ⟨g, rest, hfl2, _⟩ | ⟨g, rest, _, hq, hg⟩ | ⟨_, _, hg⟩
  · rw [hfl] at hfl2; cases hfl2
  · rw [fetch_miss s _ p g hmiss hg] at hf
    cases hf
    exact ⟨by rw [hq]; rfl, hg⟩
  · rw [fetch_fail s s p hmiss hg] at hf; cases hf

/-- C12: victim write-back. In every reachable state with an empty free list,
a `FetchPage(p)` that misses and obtains frame `f` takes `f` from the front of
the replacer. When `f` is dirty, durable storage receives exactly one write,
of the bytes `f` held under the page id `f` held, and then the read of `p`;
afterwards it holds those bytes for the old id. When `f` is clean it receives
the read of `p` alone and its content is unchanged. -/
theorem victim_write_back (s : BufferPoolManager) (p : page_id_t) (f : Nat)
    (hs : Reachable s) (hmiss : PageTable.Find s.page_table_ p = none)
    (hfl : s.free_list_ = []) (hf : (s.FetchPage p).1 = some f) :
    s.replacer_.queue_.head? = some f ∧
    ((s.page f).is_dirty_ = true →
      (s.FetchPage p).2.disk_manager_.log =
        s.disk_manager_.log ++
          [DiskEvent.write (s.page f).page_id_ (s.page f).data_, DiskEvent.read p] ∧
      (s.FetchPage p).2.disk_manager_.content (s.page f).page_id_ = (s.page f).data_) ∧
    ((s.page f).is_dirty_ = false →
      (s.FetchPage p).2.disk_manager_.log = s.disk_manager_.log ++ [DiskEvent.read p] ∧
      (s.FetchPage p).2.disk_manager_.store = s.disk_manager_.store) := by
  have H := reachable_inv hs
  obtain ⟨hhead, hg⟩ := fetch_victim H hmiss hfl hf
  rw [fetch_miss s _ p f hmiss hg]
  refine ⟨hhead, ?_, ?_⟩
  · intro hd
    have hdm : (s.afterVictim f).disk_manager_ =
        s.disk_manager_.WritePage (s.page f).page_id_ (s.page f).data_ := by
      show (if (s.page f).is_dirty_ = true then _ else _) = _
      rw [if_pos hd]
    constructor
    · show ((s.afterVictim f).disk_manager_.ReadPage p).2.log = _
      rw [hdm]
      simp [DiskManager.ReadPage, DiskManager.WritePage]
    · show ((s.afterVictim f).disk_manager_.ReadPage p).2.content _ = _
      rw [hdm]
      exact content_write_self _ _ _
  · intro hd
    have hdm : (s.afterVictim f).disk_manager_ = s.disk_manager_ := by
      show (if (s.page f).is_dirty_ = true then _ else _) = _
      rw [if_neg (by rw [hd]; simp)]
    constructor
    · show ((s.afterVictim f).disk_manager_.ReadPage p).2.log = _
      rw [hdm]; rfl
    · show ((s.afterVictim f).disk_manager_.ReadPage p).2.store = _
      rw [hdm]; rfl

/-- Witness of `victim_write_back`: pool of one frame, page 1 fetched and
unpinned dirty, then page 2 fetched. -/
theorem victim_write_back_witness :
    ((((new 1 DiskManager.blank).step (Call.fetch 1)).step (Call.unpin 1 true)).FetchPage
        2).2.disk_manager_.log
      = [DiskEvent.read 1, DiskEvent.write 1 zeroData, DiskEvent.read 2] :=
  ((victim_write_back (((new 1 DiskManager.blank).step (Call.fetch 1)).step (Call.unpin 1 true))
    2 0
    (Reachable.step (Call.unpin 1 true)
      (Reachable.step (Call.fetch 1) (Reachable.init 1 DiskManager.blank) (by decide))
      (by decide))
    (by decide) (by decide) (by decide)).2.1 (by decide)).1

/-- C15: `FlushPage`. In every reachable state, `FlushPage(p)` on a page that
is not resident returns false and changes nothing, durable storage included.
On a resident page in frame `f` it returns true whether or not `f` is dirty,
durable storage receives exactly one call, the write of the bytes of `f` under
`p`, and holds them for `p` afterwards; the dirty flag of `f` is cleared, and
the pin count, page id and bytes of `f`, every other frame, the page table,
the free list and the replacer are unchanged. -/
theorem flush_spec (s : BufferPoolManager) (p : page_id_t) (hs : Reachable s) :
    (PageTable.Find s.page_table_ p = none → s.FlushPage p = (false, s)) ∧
    (∀ f, PageTable.Find s.page_table_ p = some f →
      (s.FlushPage p).1 = true ∧
      (s.FlushPage p).2.disk_manager_.log =
        s.disk_manager_.log ++ [DiskEvent.write p (s.page f).data_] ∧
      (s.FlushPage p).2.disk_manager_.content p = (s.page f).data_ ∧
      (s.FlushPage p).2.page f = { s.page f with is_dirty_ := false } ∧
      (∀ g, g ≠ f → (s.FlushPage p).2.page g = s.page g) ∧
      (s.FlushPage p).2.page_table_ = s.page_table_ ∧
      (s.FlushPage p).2.free_list_ = s.free_list_ ∧
      (s.FlushPage p).2.replacer_ = s.replacer_ ∧
      (s.FlushPage p).2.pool_size_ = s.pool_size_) := by
  have H := reachable_inv hs
  constructor
  · intro h
    unfold FlushPage
    rw [h]
  · intro f h
    have hf := H.table_lt p f h
    unfold FlushPage
    rw [h]
    refine ⟨rfl, rfl, content_write_self _ _ _, ?_, ?_, rfl, rfl, rfl, rfl⟩
    · have := page_set s f f { s.page f with is_dirty_ := false } hf
      rw [if_pos rfl] at this
      exact this
    · intro g hg
      have := page_set s f g { s.page f with is_dirty_ := false } hf
      rw [if_neg hg] at this
      exact this

/-- Witness of `flush_spec`: flushing page 1 right after it was fetched. -/
theorem flush_spec_witness :
    (((new 1 DiskManager.blank).step (Call.fetch 1)).FlushPage 1).1 = true ∧
    (((new 1 DiskManager.blank).step (Call.fetch 1)).FlushPage 1).2.disk_manager_.log
      = [DiskEvent.read 1, DiskEvent.write 1 zeroData] :=
  have h := (flush_spec ((new 1 DiskManager.blank).step (Call.fetch 1)) 1
    (Reachable.step (Call.fetch 1) (Reachable.init 1 DiskManager.blank) (by decide))).2 0
    (by decide)
  ⟨h.1, h.2.1⟩

/-- C16: delete guard. In every state, `DeletePage(p)` returns false and
leaves the whole state unchanged (frames, page table, free list, replacer and
durable storage, so no deallocation is requested) when `p` is not resident or
is resident with pin count greater than zero. -/
theorem delete_guard (s : BufferPoolManager) (p : page_id_t)
    (h : PageTable.Find s.page_table_ p = none ∨
      ∃ f, PageTable.Find s.page_table_ p = some f ∧ (s.page f).pin_count_ > 0) :
    s.DeletePage p = (false, s) := by
  rcases h with h | ⟨f, h, hpin⟩
  · exact delete_miss s p h
  · exact delete_pinned s p f h hpin

/-- Witness of `delete_guard`: deleting page 1 while it is pinned. -/
theorem delete_guard_witness :
    ((new 1 DiskManager.blank).step (Call.fetch 1)).DeletePage 1
      = (false, (new 1 DiskManager.blank).step (Call.fetch 1)) :=
  delete_guard ((new 1 DiskManager.blank).step (Call.fetch 1)) 1
    (Or.inr ⟨0, by decide, by decide⟩)

/-- C17: delete success. In every reachable state, `DeletePage` never returns
false after having changed the state; and `DeletePage(p)` for a page resident
in frame `f` with pin count 0 returns true, after which `p` is not resident,
`f` is not in the replacer, `f` has the invalid page id, pin count 0, a clear
dirty flag and `PAGE_SIZE` zero bytes, `f` is appended to the free list, every
other frame and page-table entry is unchanged, and durable storage has
received exactly one call, the deallocation of `p`. -/
theorem delete_success (s : BufferPoolManager) (p q : page_id_t) (f : Nat)
    (hs : Reachable s) (hres : PageTable.Find s.page_table_ p = some f)
    (hpin : (s.page f).pin_count_ = 0) :
    ((s.DeletePage q).1 = false → (s.DeletePage q).2 = s) ∧
    (s.DeletePage p).1 = true ∧
    PageTable.Find (s.DeletePage p).2.page_table_ p = none ∧
    (∀ r, r ≠ p → PageTable.Find (s.DeletePage p).2.page_table_ r
      = PageTable.Find s.page_table_ r) ∧
    f ∉ (s.DeletePage p).2.replacer_.queue_ ∧
    f ∉ (s.DeletePage p).2.replacer_.map_ ∧
    (s.DeletePage p).2.page f =
      { data_ := List.replicate PAGE_SIZE 0, page_id_ := INVALID_PAGE_ID, pin_count_ := 0,
        is_dirty_ := false } ∧
    (∀ g, g ≠ f → (s.DeletePage p).2.page g = s.page g) ∧
    (s.DeletePage p).2.free_list_ = s.free_list_ ++ [f] ∧
    (s.DeletePage p).2.disk_manager_.log = s.disk_manager_.log ++ [DiskEvent.deallocate p] ∧
    (s.DeletePage p).2.disk_manager_.store = s.disk_manager_.store := by
  have H := reachable_inv hs
  have hf := H.table_lt p f hres
  refine ⟨?_, ?_⟩
  · intro hq
    cases hfind : PageTable.Find s.page_table_ q with
    | none => rw [delete_miss s q hfind]
    | some g =>
      by_cases hp : (s.page g).pin_count_ > 0
      · rw [delete_pinned s q g hfind hp]
      · rw [delete_ok H q g hfind (by omega)] at hq
        cases hq
  · rw [delete_ok H p f hres hpin]
    refine ⟨rfl, ?_, ?_, ?_, ?_, ?_, ?_, rfl, rfl, rfl⟩
    · show PageTable.Find (s.page_table_.filter (fun e => e.1 ≠ p)) p = none
      rw [find_filter, if_pos rfl]
    · intro r hr
      show PageTable.Find (s.page_table_.filter (fun e => e.1 ≠ p)) r = _
      rw [find_filter, if_neg hr]
    · show f ∉ s.replacer_.queue_.erase f
      exact fun hm => ((List.Nodup.mem_erase_iff H.wf.1).1 hm).1 rfl
    · show f ∉ s.replacer_.map_.erase f
      exact fun hm => ((List.Nodup.mem_erase_iff (LRUReplacer.wf_map_nodup H.wf)).1 hm).1 rfl
    · have := page_set s f f
        { data_ := zeroData, page_id_ := INVALID_PAGE_ID, pin_count_ := 0, is_dirty_ := false }
        hf
      rw [if_pos rfl] at this
      exact this
    · intro g hg
      have := page_set s f g
        { data_ := zeroData, page_id_ := INVALID_PAGE_ID, pin_count_ := 0, is_dirty_ := false }
        hf
      rw [if_neg hg] at this
      exact this

/-- Witness of `delete_success`: page 1 fetched, unpinned and deleted on a pool
of one frame. -/
theorem delete_success_witness :
    ((((new 1 DiskManager.blank).step (Call.fetch 1)).step (Call.unpin 1 false)).DeletePage
        1).1 = true ∧
    ((((new 1 DiskManager.blank).step (Call.fetch 1)).step (Call.unpin 1 false)).DeletePage
        1).2.free_list_ = [0] :=
  have h := delete_success
    (((new 1 DiskManager.blank).step (Call.fetch 1)).step (Call.unpin 1 false)) 1 1 0
    (Reachable.step (Call.unpin 1 false)
      (Reachable.step (Call.fetch 1) (Reachable.init 1 DiskManager.blank) (by decide))
      (by decide))
    (by decide) (by decide)
  ⟨h.2.1, h.2.2.2.2.2.2.2.2.1⟩

/-- C18: allocate on a saturated pool. In every state whose free list is empty
and whose replacer tracks nothing, `NewPage` returns the null pointer and
reports the id `AllocatePage` handed out; frames, page table, free list and
replacer are unchanged, and durable storage has received exactly one call, that
allocation: the id is not deallocated. -/
theorem allocate_saturated (s : BufferPoolManager) (p : page_id_t)
    (hfl : s.free_list_ = []) (hr : s.replacer_.Size = 0) :
    (s.NewPage p).1 = none ∧
    (s.NewPage p).2.1 = p ∧
    (s.NewPage p).2.2.pages_ = s.pages_ ∧
    (s.NewPage p).2.2.page_table_ = s.page_table_ ∧
    (s.NewPage p).2.2.free_list_ = s.free_list_ ∧
    (s.NewPage p).2.2.replacer_ = s.replacer_ ∧
    (s.NewPage p).2.2.pool_size_ = s.pool_size_ ∧
    (s.NewPage p).2.2.disk_manager_.store = s.disk_manager_.store ∧
    (s.NewPage p).2.2.disk_manager_.log = s.disk_manager_.log ++ [DiskEvent.allocate p] := by
  have hv : s.replacer_.Victim none = (false, none, s.replacer_) := by
    unfold LRUReplacer.Victim
    unfold LRUReplacer.Size at hr
    simp [hr]
  have hg : BufferPoolManager.getFreePage
      { s with disk_manager_ := (s.disk_manager_.AllocatePage p).2 }
      = (none, { s with disk_manager_ := (s.disk_manager_.AllocatePage p).2 }) := by
    have hl : ¬ (s.free_list_.length > 0) := by rw [hfl]; simp
    unfold getFreePage
    simp only [hl, if_false, hv]
  rw [newPage_none s _ p hg]
  exact ⟨rfl, rfl, rfl, rfl, rfl, rfl, rfl, rfl, rfl⟩

/-- Witness of `allocate_saturated`: a pool of one frame whose frame is pinned. -/
theorem allocate_saturated_witness :
    (((new 1 DiskManager.blank).step (Call.fetch 1)).NewPage 2).1 = none ∧
    (((new 1 DiskManager.blank).step (Call.fetch 1)).NewPage 2).2.1 = 2 :=
  have h := allocate_saturated ((new 1 DiskManager.blank).step (Call.fetch 1)) 2
    (by decide) (by decide)
  ⟨h.1, h.2.1⟩

/-- `UnpinPage` keeps the page table and ors the dirty flag of the frame with
its argument, whatever it returns. -/
theorem unpin_dirty {s : BufferPoolManager} (H : Inv s) (p : page_id_t) (d : Bool) (f : Nat)
    (hres : PageTable.Find s.page_table_ p = some f) :
    (s.UnpinPage p d).2.page_table_ = s.page_table_ ∧
    ((s.UnpinPage p d).2.page f).is_dirty_ = ((s.page f).is_dirty_ || d) ∧
    (∀ g, g ≠ f → (s.UnpinPage p d).2.page g = s.page g) := by
  have hf := H.table_lt p f hres
  by_cases hpin : (s.page f).pin_count_ > 0
  · rw [unpin_pos s p d f hres hf hpin]
    refine ⟨rfl, ?_, ?_⟩
    · have := page_set s f f
        { s.page f with pin_count_ := (s.page f).pin_count_ - 1,
                        is_dirty_ := (s.page f).is_dirty_ || d } hf
      rw [if_pos rfl] at this
      show (List.getD _ f Page.fresh).is_dirty_ = _
      rw [this]
    · intro g hg
      have := page_set s f g
        { s.page f with pin_count_ := (s.page f).pin_count_ - 1,
                        is_dirty_ := (s.page f).is_dirty_ || d } hf
      rw [if_neg hg] at this
      exact this
  · rw [unpin_zero s p d f hres (by omega)]
    cases d
    · exact ⟨rfl, by simp, fun _ _ => rfl⟩
    · refine ⟨rfl, ?_, ?_⟩
      · show ((s.setPage f _).page f).is_dirty_ = _
        rw [page_setPage s f f _ hf, if_pos rfl]
        simp
      · intro g hg
        show (s.setPage f _).page g = _
        rw [page_setPage s f g _ hf, if_neg hg]

/-- A `FetchPage` that returns a frame leaves the page resident in it. -/
theorem fetch_resident {s : BufferPoolManager} (H : Inv s) {p : page_id_t} {f : Nat}
    (hp : p ≠ INVALID_PAGE_ID) (hf : (s.FetchPage p).1 = some f) :
    PageTable.Find (s.FetchPage p).2.page_table_ p = some f := by
  cases hfind : PageTable.Find s.page_table_ p with
  | some g =>
    rw [fetch_hit s p g hfind] at hf ⊢
    cases hf
    exact hfind
  | none =>
    rw [(fetch_miss_spec H hp hfind hf).2.2.2.1, if_pos rfl]

/-- Two pages resident in one frame are the same page. -/
theorem frame_inj {s : BufferPoolManager} (H : Inv s) {p q : page_id_t} {f : Nat}
    (hp : PageTable.Find s.page_table_ p = some f)
    (hq : PageTable.Find s.page_table_ q = some f) : p = q :=
  (H.table_id p f hp).symm.trans (H.table_id q f hq)

/-- One admitted call other than `FlushPage(p)` after which `p` is still
resident leaves `p` in its frame and leaves a set dirty flag set. -/
theorem dirty_step {s : BufferPoolManager} (H : Inv s) (p : page_id_t) (f : Nat) (c : Call)
    (hc : c.ok s) (hne : c ≠ Call.flush p)
    (hres : PageTable.Find s.page_table_ p = some f) (hd : (s.page f).is_dirty_ = true)
    (hstay : (PageTable.Find (s.step c).page_table_ p).isSome) :
    PageTable.Find (s.step c).page_table_ p = some f ∧ ((s.step c).page f).is_dirty_ = true := by
  have hf := H.table_lt p f hres
  -- a frame handed out for another page, with `p` still resident, is not `f`
  have hinstall : ∀ (t : BufferPoolManager) (q : page_id_t) (g : Nat),
      PageTable.Find s.page_table_ q = none →
      (∀ r, PageTable.Find t.page_table_ r =
        if r = q then some g
        else if r = (s.page g).page_id_ then none
        else PageTable.Find s.page_table_ r) →
      (∀ x, x ≠ g → t.page x = s.page x) →
      (PageTable.Find t.page_table_ p).isSome →
      PageTable.Find t.page_table_ p = some f ∧ (t.page f).is_dirty_ = true := by
    intro t q g hq hfind hoth hst
    have hpq : p ≠ q := by intro e; rw [e, hq] at hres; cases hres
    rw [hfind, if_neg hpq] at hst ⊢
    by_cases hold : p = (s.page g).page_id_
    · rw [if_pos hold] at hst; cases hst
    · rw [if_neg hold]
      have hfg : f ≠ g := by
        intro e
        rw [← e] at hold
        exact hold (H.table_id p f hres).symm
      exact ⟨hres, by rw [hoth f hfg]; exact hd⟩
  cases c with
  | fetch q =>
    show PageTable.Find (s.FetchPage q).2.page_table_ p = some f ∧
      ((s.FetchPage q).2.page f).is_dirty_ = true
    change (PageTable.Find (s.FetchPage q).2.page_table_ p).isSome at hstay
    cases hfind : PageTable.Find s.page_table_ q with
    | some g =>
      have hg := H.table_lt q g hfind
      rw [fetch_hit s q g hfind]
      refine ⟨hres, ?_⟩
      rw [page_setPage s g f _ hg]
      split
      · next e => rw [← e]; exact hd
      · exact hd
    | none =>
      cases hr : (s.FetchPage q).1 with
      | some g =>
        obtain ⟨_, _, hoth, hfd, _, _⟩ := fetch_miss_spec H hc hfind hr
        exact hinstall _ q g hfind hfd hoth hstay
      | none =>
        rcases getFreePage_cases H with ⟨g, rest, _, hg⟩ | ⟨g, rest, _, _, hg⟩ | ⟨_, _, hg⟩
        · rw [fetch_miss s _ q g hfind hg] at hr; cases hr
        · rw [fetch_miss s _ q g hfind hg] at hr; cases hr
        · rw [fetch_fail s s q hfind hg]
          exact ⟨hres, hd⟩
  | unpin q d =>
    show PageTable.Find (s.UnpinPage q d).2.page_table_ p = some f ∧
      ((s.UnpinPage q d).2.page f).is_dirty_ = true
    cases hfind : PageTable.Find s.page_table_ q with
    | none => rw [unpin_miss s q d hfind]; exact ⟨hres, hd⟩
    | some g =>
      obtain ⟨ht, hdg, hoth⟩ := unpin_dirty H q d g hfind
      refine ⟨by rw [ht]; exact hres, ?_⟩
      by_cases e : f = g
      · rw [e, hdg, ← e, hd]; rfl
      · rw [hoth f e]; exact hd
  | flush q =>
    show PageTable.Find (s.FlushPage q).2.page_table_ p = some f ∧
      ((s.FlushPage q).2.page f).is_dirty_ = true
    have hqp : q ≠ p := fun e => hne (by rw [e])
    unfold FlushPage
    cases hfind : PageTable.Find s.page_table_ q with
    | none => exact ⟨hres, hd⟩
    | some g =>
      have hg := H.table_lt q g hfind
      have hfg : f ≠ g := by
        intro e
        rw [← e] at hfind
        exact hqp (frame_inj H hfind hres)
      refine ⟨hres, ?_⟩
      have := page_set s g f { s.page g with is_dirty_ := false } hg
      rw [if_neg hfg] at this
      show (List.getD _ f Page.fresh).is_dirty_ = true
      rw [this]; exact hd
  | delete q =>
    show PageTable.Find (s.DeletePage q).2.page_table_ p = some f ∧
      ((s.DeletePage q).2.page f).is_dirty_ = true
    change (PageTable.Find (s.DeletePage q).2.page_table_ p).isSome at hstay
    cases hfind : PageTable.Find s.page_table_ q with
    | none => rw [delete_miss s q hfind]; exact ⟨hres, hd⟩
    | some g =>
      by_cases hpin : (s.page g).pin_count_ > 0
      · rw [delete_pinned s q g hfind hpin]; exact ⟨hres, hd⟩
      · have hg := H.table_lt q g hfind
        rw [delete_ok H q g hfind (by omega)] at hstay ⊢
        have hfq : ∀ r, PageTable.Find (s.afterDelete q g).page_table_ r =
            if r = q then none else PageTable.Find s.page_table_ r := fun r => find_filter _ q r
        rw [hfq] at hstay ⊢
        by_cases hpq : p = q
        · rw [if_pos hpq] at hstay; cases hstay
        · rw [if_neg hpq]
          have hfg : f ≠ g := by
            intro e
            rw [← e] at hfind
            exact hpq (frame_inj H hres hfind)
          refine ⟨hres, ?_⟩
          have := page_set s g f
            { data_ := zeroData, page_id_ := INVALID_PAGE_ID, pin_count_ := 0,
              is_dirty_ := false } hg
          rw [if_neg hfg] at this
          have h2 : (s.afterDelete q g).page f = s.page f := this
          show ((s.afterDelete q g).page f).is_dirty_ = true
          rw [h2]; exact hd
  | allocate q =>
    show PageTable.Find (s.NewPage q).2.2.page_table_ p = some f ∧
      ((s.NewPage q).2.2.page f).is_dirty_ = true
    change (PageTable.Find (s.NewPage q).2.2.page_table_ p).isSome at hstay
    cases hr : (s.NewPage q).1 with
    | some g =>
      obtain ⟨_, _, hoth, hfd, _, _⟩ := newPage_spec H hc.1 hc.2 hr
      exact hinstall _ q g hc.2 hfd hoth hstay
    | none =>
      have H0 : Inv { s with disk_manager_ := (s.disk_manager_.AllocatePage q).2 } :=
        inv_congr H rfl rfl rfl rfl rfl (fun _ => rfl) (fun _ => rfl)
      rcases getFreePage_cases H0 with ⟨g, rest, _, hg⟩ | ⟨g, rest, _, _, hg⟩ | ⟨_, _, hg⟩
      · rw [newPage_some s _ q g hg] at hr; cases hr
      · rw [newPage_some s _ q g hg] at hr; cases hr
      · rw [newPage_none s _ q hg]
        exact ⟨hres, hd⟩

theorem dirty_steps (p : page_id_t) (f : Nat) (cs : List Call) :
    ∀ s : BufferPoolManager, Inv s → PageTable.Find s.page_table_ p = some f →
      (s.page f).is_dirty_ = true → keepsResident p s cs →
      PageTable.Find (s.steps cs).page_table_ p = some f ∧
        ((s.steps cs).page f).is_dirty_ = true := by
  induction cs with
  | nil => intro s _ hres hd _; exact ⟨hres, hd⟩
  | cons c cs ih =>
    intro s H hres hd hk
    obtain ⟨hc, hne, hstay, hk⟩ := hk
    obtain ⟨hres2, hd2⟩ := dirty_step H p f c hc hne hres hd hstay
    exact ih (s.step c) (inv_step H c hc) hres2 hd2 hk

/-- C14: dirty monotonicity. In every reachable state `s` with `p` resident in
frame `f`: after `UnpinPage(p, d)` the page is still in `f` and the dirty flag
of `f` is the old flag or `d`, whether the call returned true or false; and if
`f` is dirty, then after any sequence of admitted calls none of which is
`FlushPage(p)` and after each of which `p` is resident, `p` is still in `f` and
`f` is still dirty. In every reachable state `t` in which `FetchPage(q)`
returns frame `g`, after `FetchPage(q)`, `UnpinPage(q, true)`,
`UnpinPage(q, false)` the page is in `g` and `g` is dirty, and after a
following `FlushPage(q)` it is clean. -/
theorem dirty_monotone (s t : BufferPoolManager) (p q : page_id_t) (f g : Nat) (d : Bool)
    (cs : List Call) (hs : Reachable s) (hres : PageTable.Find s.page_table_ p = some f)
    (ht : Reachable t) (hq : q ≠ INVALID_PAGE_ID) (hfq : (t.FetchPage q).1 = some g) :
    (PageTable.Find (s.UnpinPage p d).2.page_table_ p = some f ∧
      ((s.UnpinPage p d).2.page f).is_dirty_ = ((s.page f).is_dirty_ || d)) ∧
    ((s.page f).is_dirty_ = true → keepsResident p s cs →
      PageTable.Find (s.steps cs).page_table_ p = some f ∧
      ((s.steps cs).page f).is_dirty_ = true) ∧
    (PageTable.Find
        (((t.FetchPage q).2.UnpinPage q true).2.UnpinPage q false).2.page_table_ q = some g ∧
      ((((t.FetchPage q).2.UnpinPage q true).2.UnpinPage q false).2.page g).is_dirty_ = true ∧
      (((((t.FetchPage q).2.UnpinPage q true).2.UnpinPage q false).2.FlushPage q).2.page
        g).is_dirty_ = false) := by
  have H := reachable_inv hs
  have Ht := reachable_inv ht
  refine ⟨?_, ?_, ?_⟩
  · obtain ⟨h1, h2, _⟩ := unpin_dirty H p d f hres
    exact ⟨by rw [h1]; exact hres, h2⟩
  · intro hd hk
    exact dirty_steps p f cs s H hres hd hk
  · have H1 : Inv (t.FetchPage q).2 := inv_fetch Ht q hq
    have r1 := fetch_resident Ht hq hfq
    obtain ⟨a1, a2, _⟩ := unpin_dirty H1 q true g r1
    have H2 : Inv ((t.FetchPage q).2.UnpinPage q true).2 := inv_unpin H1 q true
    have r2 : PageTable.Find ((t.FetchPage q).2.UnpinPage q true).2.page_table_ q = some g := by
      rw [a1]; exact r1
    obtain ⟨b1, b2, _⟩ := unpin_dirty H2 q false g r2
    have H3 : Inv (((t.FetchPage q).2.UnpinPage q true).2.UnpinPage q false).2 :=
      inv_unpin H2 q false
    have r3 : PageTable.Find
        (((t.FetchPage q).2.UnpinPage q true).2.UnpinPage q false).2.page_table_ q = some g := by
      rw [b1]; exact r2
    refine ⟨r3, ?_, ?_⟩
    · rw [b2, a2]; simp
    · have hg := H3.table_lt q g r3
      unfold FlushPage
      rw [r3]
      have := page_set (((t.FetchPage q).2.UnpinPage q true).2.UnpinPage q false).2 g g
        { (((t.FetchPage q).2.UnpinPage q true).2.UnpinPage q false).2.page g with
          is_dirty_ := false } hg
      rw [if_pos rfl] at this
      show (List.getD _ g Page.fresh).is_dirty_ = false
      rw [this]

/-- Witness of `dirty_monotone`: page 1 on a pool of one frame. -/
theorem dirty_monotone_witness :
    (((((new 1 DiskManager.blank).FetchPage 1).2.UnpinPage 1 true).2.UnpinPage 1 false).2.page
      0).is_dirty_ = true ∧
    ((((((new 1 DiskManager.blank).FetchPage 1).2.UnpinPage 1 true).2.UnpinPage 1
      false).2.FlushPage 1).2.page 0).is_dirty_ = false :=
  have h := dirty_monotone ((new 1 DiskManager.blank).step (Call.fetch 1))
    (new 1 DiskManager.blank) 1 1 0 0 true [Call.unpin 1 true]
    (Reachable.step (Call.fetch 1) (Reachable.init 1 DiskManager.blank) (by decide))
    (by decide) (Reachable.init 1 DiskManager.blank) (by decide) (by decide)
  ⟨h.2.2.2.1, h.2.2.2.2⟩

theorem reachable_steps (cs : List Call) :
    ∀ s : BufferPoolManager, Reachable s → admitted s cs → Reachable (s.steps cs) := by
  induction cs with
  | nil => intro s hs _; exact hs
  | cons c cs ih => intro s hs h; exact ih (s.step c) (Reachable.step c hs h.1) h.2

theorem pool_size_step {s : BufferPoolManager} (H : Inv s) (c : Call) :
    (s.step c).pool_size_ = s.pool_size_ := by
  cases c with
  | fetch p =>
    show (s.FetchPage p).2.pool_size_ = _
    cases hfind : PageTable.Find s.page_table_ p with
    | some f => rw [fetch_hit s p f hfind]; rfl
    | none =>
      rcases getFreePage_cases H with ⟨g, rest, _, hg⟩ | ⟨g, rest, _, _, hg⟩ | ⟨_, _, hg⟩
      · rw [fetch_miss s _ p g hfind hg]; rfl
      · rw [fetch_miss s _ p g hfind hg]; rfl
      · rw [fetch_fail s s p hfind hg]
  | unpin p d =>
    show (s.UnpinPage p d).2.pool_size_ = _
    cases hfind : PageTable.Find s.page_table_ p with
    | none => rw [unpin_miss s p d hfind]
    | some f =>
      by_cases hpin : (s.page f).pin_count_ > 0
      · rw [unpin_pos s p d f hfind (H.table_lt p f hfind) hpin]
      · rw [unpin_zero s p d f hfind (by omega)]
        cases d <;> rfl
  | flush p =>
    show (s.FlushPage p).2.pool_size_ = _
    unfold FlushPage
    split <;> rfl
  | delete p =>
    show (s.DeletePage p).2.pool_size_ = _
    cases hfind : PageTable.Find s.page_table_ p with
    | none => rw [delete_miss s p hfind]
    | some f =>
      by_cases hpin : (s.page f).pin_count_ > 0
      · rw [delete_pinned s p f hfind hpin]
      · rw [delete_ok H p f hfind (by omega)]; rfl
  | allocate p =>
    show (s.NewPage p).2.2.pool_size_ = _
    have H0 : Inv { s with disk_manager_ := (s.disk_manager_.AllocatePage p).2 } :=
      inv_congr H rfl rfl rfl rfl rfl (fun _ => rfl) (fun _ => rfl)
    rcases getFreePage_cases H0 with ⟨g, rest, _, hg⟩ | ⟨g, rest, _, _, hg⟩ | ⟨_, _, hg⟩
    · rw [newPage_some s _ p g hg]; rfl
    · rw [newPage_some s _ p g hg]; rfl
    · rw [newPage_none s _ p hg]

theorem pool_size_steps (cs : List Call) :
    ∀ s : BufferPoolManager, Inv s → admitted s cs →
      (s.steps cs).pool_size_ = s.pool_size_ := by
  induction cs with
  | nil => intro s _ _; rfl
  | cons c cs ih =>
    intro s H h
    exact (ih (s.step c) (inv_step H c h.1) h.2).trans (pool_size_step H c)

/-- With distinct keys, the entries of the page table are what `Find` returns. -/
theorem mem_table_iff (t : PageTable) (h : (t.map Prod.fst).Nodup) (p : page_id_t) (f : Nat) :
    (p, f) ∈ t ↔ PageTable.Find t p = some f := by
  induction t with
  | nil => simp [PageTable.Find]
  | cons e t ih =>
    obtain ⟨a, v⟩ := e
    simp only [List.map_cons, List.nodup_cons] at h
    simp only [PageTable.Find, List.mem_cons, Prod.mk.injEq]
    by_cases ha : a = p
    · subst ha
      simp only [if_true, Option.some.injEq, true_and]
      constructor
      · rintro (e | hm)
        · exact e.symm
        · exact absurd (List.mem_map_of_mem Prod.fst hm) h.1
      · intro e; exact Or.inl e.symm
    · have ha2 : ¬ p = a := fun e => ha e.symm
      simp only [ha, ha2, if_false, false_and, false_or]
      exact ih h.2

/-- A frame of the free list is not resident. -/
theorem free_not_resident {s : BufferPoolManager} (H : Inv s) {f : Nat} (hf : f ∈ s.free_list_)
    (p : page_id_t) : PageTable.Find s.page_table_ p ≠ some f := by
  intro h
  have h1 := H.table_id p f h
  rw [H.free_invalid f hf] at h1
  rw [← h1, H.table_valid] at h
  cases h

/-- The frames the page table points to are pairwise distinct. -/
theorem table_values_nodup {s : BufferPoolManager} (H : Inv s) :
    (s.page_table_.map Prod.snd).Nodup := by
  refine List.Nodup.map_on ?_ (List.Nodup.of_map Prod.fst H.table_keys)
  rintro ⟨p, f⟩ hx ⟨q, g⟩ hy hfg
  simp only at hfg
  subst hfg
  have hp := (mem_table_iff _ H.table_keys p f).1 hx
  have hq := (mem_table_iff _ H.table_keys q f).1 hy
  rw [frame_inj H hp hq]

/-- Free list and page table together hold every frame once. -/
theorem frames_perm {s : BufferPoolManager} (H : Inv s) :
    (s.free_list_ ++ s.page_table_.map Prod.snd).Perm (List.range s.pool_size_) := by
  have hnd : (s.free_list_ ++ s.page_table_.map Prod.snd).Nodup := by
    rw [List.nodup_append]
    refine ⟨H.free_nodup, table_values_nodup H, ?_⟩
    intro f hf hv
    obtain ⟨⟨p, g⟩, hm, hg⟩ := List.mem_map.1 hv
    simp only at hg
    subst hg
    exact free_not_resident H hf p ((mem_table_iff _ H.table_keys p g).1 hm)
  refine (List.perm_ext_iff_of_nodup hnd (List.nodup_range _)).2 ?_
  intro f
  rw [List.mem_range, List.mem_append, ← H.len]
  constructor
  · rintro (hf | hv)
    · exact H.free_lt f hf
    · obtain ⟨⟨p, g⟩, hm, hg⟩ := List.mem_map.1 hv
      simp only at hg
      subst hg
      exact H.table_lt p g ((mem_table_iff _ H.table_keys p g).1 hm)
  · intro hf
    rcases H.cover f hf with h | h
    · exact Or.inl h
    · right
      exact List.mem_map.2 ⟨(_, f), (mem_table_iff _ H.table_keys _ f).2 h, rfl⟩

/-- C20: frame conservation. Let `s` be the state a freshly constructed manager
of pool size `N` reaches by any sequence of admitted calls (page ids other than
the invalid one, `NewPage` handed ids that are not resident). Then `s` has `N`
frames; every page-table entry `p -> f` has `f < N` and `f.page_id = p`, and
the page table is injective; every frame `f < N` is either in the free list,
exactly once, and not resident, or not in the free list and the frame of
exactly one page, the page table holding exactly one entry with value `f`; no
frame of the free list is in the replacer; and the number of free frames plus
the number of page-table entries is `N`. -/
theorem frame_conservation (N : Nat) (d : DiskManager) (cs : List Call)
    (hadm : admitted (new N d) cs) :
    ((new N d).steps cs).pool_size_ = N ∧
    ((new N d).steps cs).pages_.length = N ∧
    (∀ p f, PageTable.Find ((new N d).steps cs).page_table_ p = some f →
      f < N ∧ (((new N d).steps cs).page f).page_id_ = p) ∧
    (∀ p q f, PageTable.Find ((new N d).steps cs).page_table_ p = some f →
      PageTable.Find ((new N d).steps cs).page_table_ q = some f → p = q) ∧
    (∀ f, f < N →
      (((new N d).steps cs).free_list_.count f = 1 ∧
        (∀ p, PageTable.Find ((new N d).steps cs).page_table_ p ≠ some f) ∧
        (((new N d).steps cs).page_table_.map Prod.snd).count f = 0) ∨
      (((new N d).steps cs).free_list_.count f = 0 ∧
        (∃! p, PageTable.Find ((new N d).steps cs).page_table_ p = some f) ∧
        (((new N d).steps cs).page_table_.map Prod.snd).count f = 1)) ∧
    (∀ f ∈ ((new N d).steps cs).free_list_,
      f ∉ ((new N d).steps cs).replacer_.queue_ ∧ f ∉ ((new N d).steps cs).replacer_.map_) ∧
    ((new N d).steps cs).free_list_.length + ((new N d).steps cs).page_table_.length = N := by
  have hs : Reachable ((new N d).steps cs) :=
    reachable_steps cs (new N d) (Reachable.init N d) hadm
  have H := reachable_inv hs
  have hN : ((new N d).steps cs).pool_size_ = N :=
    pool_size_steps cs (new N d) (inv_new N d) hadm
  have hlen : ((new N d).steps cs).pages_.length = N := H.len.trans hN
  generalize (new N d).steps cs = s at hs H hN hlen ⊢
  refine ⟨hN, hlen, ?_, ?_, ?_, ?_, ?_⟩
  · intro p f h
    exact ⟨by rw [← hlen]; exact H.table_lt p f h, H.table_id p f h⟩
  · intro p q f hp hq
    exact frame_inj H hp hq
  · intro f hf
    rw [← hlen] at hf
    rcases H.cover f hf with hfree | hres
    · left
      refine ⟨List.count_eq_one_of_mem H.free_nodup hfree, free_not_resident H hfree, ?_⟩
      rw [List.count_eq_zero]
      intro hv
      obtain ⟨⟨p, g⟩, hm, hg⟩ := List.mem_map.1 hv
      simp only at hg
      subst hg
      exact free_not_resident H hfree p ((mem_table_iff _ H.table_keys p g).1 hm)
    · right
      refine ⟨?_, ⟨_, hres, fun q hq => frame_inj H hq hres⟩, ?_⟩
      · rw [List.count_eq_zero]
        intro hfree
        exact free_not_resident H hfree _ hres
      · exact List.count_eq_one_of_mem (table_values_nodup H)
          (List.mem_map.2 ⟨(_, f), (mem_table_iff _ H.table_keys _ f).2 hres, rfl⟩)
  · intro f hf
    have hq : f ∉ s.replacer_.queue_ := by
      intro hm
      exact free_not_resident H hf _ (H.repl_res f hm)
    exact ⟨hq, fun hm => hq ((LRUReplacer.wf_mem_iff H.wf f).1 hm)⟩
  · have := (frames_perm H).length_eq
    rw [List.length_append, List.length_map, List.length_range, hN] at this
    exact this

/-- Witness of `frame_conservation`: pool of two frames; page 1 fetched and
unpinned, page 2 allocated, page 1 deleted. -/
theorem frame_conservation_witness :
    ((new 2 DiskManager.blank).steps
      [Call.fetch 1, Call.unpin 1 false, Call.allocate 2, Call.delete 1]).free_list_.length +
    ((new 2 DiskManager.blank).steps
      [Call.fetch 1, Call.unpin 1 false, Call.allocate 2, Call.delete 1]).page_table_.length
      = 2 :=
  (frame_conservation 2 DiskManager.blank
    [Call.fetch 1, Call.unpin 1 false, Call.allocate 2, Call.delete 1]
    ⟨by decide, by decide, by decide, by decide, trivial⟩).2.2.2.2.2.2

/-- Pool of two frames: pages 1 and 2 fetched and unpinned in turn, then page 3
fetched; whatever durable storage holds, page 3 takes the frame of page 1. -/
theorem lru_scenario (d : DiskManager) :
    ((new 2 d).steps [Call.fetch 1, Call.unpin 1 false, Call.fetch 2, Call.unpin 2 false,
      Call.fetch 3]).page_table_ = [(3, 0), (2, 1)] := by
  have e1 : (new 2 d).step (Call.fetch 1) =
      { pool_size_ := 2,
        pages_ := [{ data_ := d.content 1, page_id_ := 1, pin_count_ := 1, is_dirty_ := false },
          Page.fresh],
        page_table_ := [(1, 0)], replacer_ := LRUReplacer.empty, free_list_ := [1],
        disk_manager_ := { store := d.store, log := d.log ++ [DiskEvent.read 1] } } := rfl
  have e2 : ∀ dm, BufferPoolManager.step
      { pool_size_ := 2,
        pages_ := [{ data_ := d.content 1, page_id_ := 1, pin_count_ := 1, is_dirty_ := false },
          Page.fresh],
        page_table_ := [(1, 0)], replacer_ := LRUReplacer.empty, free_list_ := [1],
        disk_manager_ := dm } (Call.unpin 1 false) =
      { pool_size_ := 2,
        pages_ := [{ data_ := d.content 1, page_id_ := 1, pin_count_ := 0, is_dirty_ := false },
          Page.fresh],
        page_table_ := [(1, 0)], replacer_ := { queue_ := [0], map_ := [0] }, free_list_ := [1],
        disk_manager_ := dm } := fun _ => rfl
  have e3 : ∀ dm : DiskManager, (BufferPoolManager.step
      { pool_size_ := 2,
        pages_ := [{ data_ := d.content 1, page_id_ := 1, pin_count_ := 0, is_dirty_ := false },
          Page.fresh],
        page_table_ := [(1, 0)], replacer_ := { queue_ := [0], map_ := [0] }, free_list_ := [1],
        disk_manager_ := dm } (Call.fetch 2)) =
      { pool_size_ := 2,
        pages_ := [{ data_ := d.content 1, page_id_ := 1, pin_count_ := 0, is_dirty_ := false },
          { data_ := dm.content 2, page_id_ := 2, pin_count_ := 1, is_dirty_ := false }],
        page_table_ := [(2, 1), (1, 0)], replacer_ := { queue_ := [0], map_ := [0] },
        free_list_ := [],
        disk_manager_ := { store := dm.store, log := dm.log ++ [DiskEvent.read 2] } } :=
    fun _ => rfl
  have e4 : ∀ (dm : DiskManager) (x : List Nat), BufferPoolManager.step
      { pool_size_ := 2,
        pages_ := [{ data_ := d.content 1, page_id_ := 1, pin_count_ := 0, is_dirty_ := false },
          { data_ := x, page_id_ := 2, pin_count_ := 1, is_dirty_ := false }],
        page_table_ := [(2, 1), (1, 0)], replacer_ := { queue_ := [0], map_ := [0] },
        free_list_ := [], disk_manager_ := dm } (Call.unpin 2 false) =
      { pool_size_ := 2,
        pages_ := [{ data_ := d.content 1, page_id_ := 1, pin_count_ := 0, is_dirty_ := false },
          { data_ := x, page_id_ := 2, pin_count_ := 0, is_dirty_ := false }],
        page_table_ := [(2, 1), (1, 0)], replacer_ := { queue_ := [0, 1], map_ := [0, 1] },
        free_list_ := [], disk_manager_ := dm } := fun _ _ => rfl
  have e5 : ∀ (dm : DiskManager) (x : List Nat), (BufferPoolManager.step
      { pool_size_ := 2,
        pages_ := [{ data_ := d.content 1, page_id_ := 1, pin_count_ := 0, is_dirty_ := false },
          { data_ := x, page_id_ := 2, pin_count_ := 0, is_dirty_ := false }],
        page_table_ := [(2, 1), (1, 0)], replacer_ := { queue_ := [0, 1], map_ := [0, 1] },
        free_list_ := [], disk_manager_ := dm } (Call.fetch 3)).page_table_ = [(3, 0), (2, 1)] :=
    fun _ _ => rfl
  unfold steps
  simp only [List.foldl]
  rw [e1, e2, e3, e4, e5]

/-- C11 (code at the failing input): on a pool of two frames, after
`FetchPage(1)`, `UnpinPage(1, false)`, `FetchPage(1)`, `FetchPage(2)`,
`UnpinPage(2, false)` the state is reachable, the free list is empty, page 1 is
resident in frame 0 with pin count 1 and page 2 in frame 1 with pin count 0, so
frame 1 is the only frame whose pin count is zero. Yet both `FetchPage(3)` and
`NewPage` (handed id 3) reuse frame 0: page 1 stops being resident while
pinned, and the unpinned page 2 stays. When no page is fetched again between
its unpin and the eviction the code does evict the least recently unpinned
page: `FetchPage(1)`, `UnpinPage(1)`, `FetchPage(2)`, `UnpinPage(2)`,
`FetchPage(3)` leaves page 1 not resident and pages 2 and 3 resident, whatever
durable storage holds. -/
theorem eviction_takes_pinned :
    Reachable repinnedOldest ∧
    repinnedOldest.free_list_ = [] ∧
    PageTable.Find repinnedOldest.page_table_ 1 = some 0 ∧
    (repinnedOldest.page 0).pin_count_ = 1 ∧
    PageTable.Find repinnedOldest.page_table_ 2 = some 1 ∧
    (repinnedOldest.page 1).pin_count_ = 0 ∧
    PageTable.Find repinnedOldest.page_table_ 3 = none ∧
    repinnedOldest.replacer_.queue_ = [0, 1] ∧
    ((repinnedOldest.FetchPage 3).1 = some 0 ∧
      PageTable.Find (repinnedOldest.FetchPage 3).2.page_table_ 1 = none ∧
      PageTable.Find (repinnedOldest.FetchPage 3).2.page_table_ 2 = some 1 ∧
      PageTable.Find (repinnedOldest.FetchPage 3).2.page_table_ 3 = some 0) ∧
    ((repinnedOldest.NewPage 3).1 = some 0 ∧
      PageTable.Find (repinnedOldest.NewPage 3).2.2.page_table_ 1 = none ∧
      PageTable.Find (repinnedOldest.NewPage 3).2.2.page_table_ 2 = some 1 ∧
      PageTable.Find (repinnedOldest.NewPage 3).2.2.page_table_ 3 = some 0) ∧
    (∀ d : DiskManager,
      PageTable.Find ((new 2 d).steps [Call.fetch 1, Call.unpin 1 false, Call.fetch 2,
        Call.unpin 2 false, Call.fetch 3]).page_table_ 1 = none ∧
      PageTable.Find ((new 2 d).steps [Call.fetch 1, Call.unpin 1 false, Call.fetch 2,
        Call.unpin 2 false, Call.fetch 3]).page_table_ 2 = some 1 ∧
      PageTable.Find ((new 2 d).steps [Call.fetch 1, Call.unpin 1 false, Call.fetch 2,
        Call.unpin 2 false, Call.fetch 3]).page_table_ 3 = some 0) := by
  refine ⟨?_, by decide, by decide, by decide, by decide, by decide, by decide, by decide,
    ⟨by decide, by decide, by decide, by decide⟩,
    ⟨by decide, by decide, by decide, by decide⟩, ?_⟩
  · exact reachable_steps _ _ (Reachable.init 2 DiskManager.blank)
      ⟨by decide, by decide, by decide, by decide, by decide, trivial⟩
  · intro d
    rw [lru_scenario d]
    exact ⟨by decide, by decide, by decide⟩

theorem loaded_new (N : Nat) (d : DiskManager) : Loaded [] (new N d) := by
  refine ⟨inv_new N d, rfl, ?_, ?_, ?_⟩
  · intro p hp; cases hp
  · intro p f h; simp [new, PageTable.Find] at h
  · simp [new]

/-- Fetching one more page while a frame is free. -/
theorem loaded_fetch {done : List page_id_t} {s : BufferPoolManager} (L : Loaded done s)
    (p : page_id_t) (hp : p ≠ INVALID_PAGE_ID) (hnew : p ∉ done)
    (hroom : done.length < s.pool_size_) :
    (s.FetchPage p).1.isSome ∧ Loaded (done ++ [p]) (s.FetchPage p).2 := by
  have H := L.inv
  have hmiss : PageTable.Find s.page_table_ p = none := by
    cases h : PageTable.Find s.page_table_ p with
    | none => rfl
    | some f => exact absurd (L.only p f h) hnew
  cases hfl : s.free_list_ with
  | nil =>
    have := L.free
    rw [hfl] at this
    simp at this
    omega
  | cons f rest =>
    have hg := getFreePage_free s f rest hfl
    have hfe := fetch_miss s _ p f hmiss hg
    have h1 : (s.FetchPage p).1 = some f := by rw [hfe]
    obtain ⟨_, hpg, hoth, hfind, _, _⟩ := fetch_miss_spec H hp hmiss h1
    have hfree : f ∈ s.free_list_ := by rw [hfl]; simp
    have hold : (s.page f).page_id_ = INVALID_PAGE_ID := H.free_invalid f hfree
    have hfind2 : ∀ q, q ≠ p → PageTable.Find (s.FetchPage p).2.page_table_ q
        = PageTable.Find s.page_table_ q := by
      intro q hq
      rw [hfind, if_neg hq, hold]
      split
      · next e => rw [e, H.table_valid]
      · rfl
    refine ⟨by rw [h1]; rfl, inv_fetch H p hp, ?_, ?_, ?_, ?_⟩
    · rw [hfe]; exact L.repl
    · intro q hq
      rcases List.mem_append.1 hq with hq | hq
      · obtain ⟨g, hg1, hg2⟩ := L.pinned q hq
        have hqp : q ≠ p := fun e => hnew (e ▸ hq)
        have hgf : g ≠ f := fun e => free_not_resident H hfree q (e ▸ hg1)
        exact ⟨g, by rw [hfind2 q hqp]; exact hg1, by rw [hoth g hgf]; exact hg2⟩
      · simp only [List.mem_singleton] at hq
        subst hq
        exact ⟨f, by rw [hfind, if_pos rfl], by rw [hpg]⟩
    · intro q g hq
      by_cases hqp : q = p
      · rw [hqp]; simp
      · rw [hfind2 q hqp] at hq
        exact List.mem_append.2 (Or.inl (L.only q g hq))
    · have hps : (s.FetchPage p).2.pool_size_ = s.pool_size_ := by rw [hfe]; rfl
      have hfl2 : (s.FetchPage p).2.free_list_ = rest := by rw [hfe]; rfl
      have := L.free
      rw [hfl] at this
      rw [hps, hfl2]
      simp only [List.length_cons, List.length_append, List.length_singleton,
        List.length_nil] at this ⊢
      omega

theorem steps_append (s : BufferPoolManager) (cs ds : List Call) :
    s.steps (cs ++ ds) = (s.steps cs).steps ds := by
  unfold steps
  rw [List.foldl_append]

/-- Fetching a list of distinct new pages while frames are free. -/
theorem loaded_fetches (ids : List page_id_t) :
    ∀ (done : List page_id_t) (s : BufferPoolManager), Loaded done s →
      (done ++ ids).Nodup → (∀ p ∈ ids, p ≠ INVALID_PAGE_ID) →
      done.length + ids.length ≤ s.pool_size_ →
      Loaded (done ++ ids) (s.steps (ids.map Call.fetch)) ∧
      (s.steps (ids.map Call.fetch)).pool_size_ = s.pool_size_ := by
  induction ids with
  | nil =>
    intro done s L _ _ _
    simp only [List.append_nil, List.map_nil]
    exact ⟨L, rfl⟩
  | cons p ids ih =>
    intro done s L hnd hval hlen
    have hp : p ∉ done := by
      intro hm
      have := List.nodup_append.1 hnd
      exact this.2.2 hm (by simp)
    simp only [List.length_cons] at hlen
    obtain ⟨_, L1⟩ := loaded_fetch L p (hval p (by simp)) hp (by omega)
    have hps : (s.FetchPage p).2.pool_size_ = s.pool_size_ :=
      pool_size_step L.inv (Call.fetch p)
    have hnd2 : ((done ++ [p]) ++ ids).Nodup := by
      rw [List.append_assoc]; exact hnd
    obtain ⟨L2, hps2⟩ := ih (done ++ [p]) (s.FetchPage p).2 L1 hnd2
      (fun q hq => hval q (by simp [hq])) (by
        rw [hps]; simp only [List.length_append, List.length_singleton]; omega)
    have e : s.steps ((p :: ids).map Call.fetch)
        = BufferPoolManager.steps (s.FetchPage p).2 (ids.map Call.fetch) := rfl
    rw [e]
    refine ⟨?_, hps2.trans hps⟩
    have e2 : done ++ p :: ids = (done ++ [p]) ++ ids := by simp
    rw [e2]
    exact L2

/-- State of a pool whose frames are all taken by pinned pages: no free frame
and nothing in the replacer. -/
theorem loaded_full {done : List page_id_t} {s : BufferPoolManager} (L : Loaded done s)
    (hfull : done.length = s.pool_size_) :
    s.free_list_ = [] ∧ s.replacer_.queue_ = [] := by
  refine ⟨?_, L.repl⟩
  have := L.free
  rw [hfull] at this
  exact List.length_eq_zero.1 (by omega)

/-- C13 (exhaustion): from a freshly constructed manager with pool size `N`
and `N + 1` distinct valid page ids `ids ++ [x]`, each of the `N` fetches of
`ids` returns a frame; the fetch of `x` then returns no frame and leaves the
whole state, disk log included, as it was; and after `UnpinPage` of any one
page `y` of `ids` the fetch of `x` returns the frame `y` was in, `y` is no
longer resident, `x` is, and every other page of `ids` is still resident in
its frame. -/
theorem exhaustion (N : Nat) (d : DiskManager) (ids : List page_id_t) (x : page_id_t)
    (hlen : ids.length = N) (hnd : (ids ++ [x]).Nodup)
    (hval : ∀ p ∈ ids ++ [x], p ≠ INVALID_PAGE_ID) :
    (∀ pre p post, ids = pre ++ p :: post →
      (((new N d).steps (pre.map Call.fetch)).FetchPage p).1.isSome = true) ∧
    ((new N d).steps (ids.map Call.fetch)).FetchPage x
      = (none, (new N d).steps (ids.map Call.fetch)) ∧
    (∀ y ∈ ids, ∀ b : Bool,
      (((new N d).steps (ids.map Call.fetch)).UnpinPage y b).1 = true ∧
      ∃ f, PageTable.Find ((new N d).steps (ids.map Call.fetch)).page_table_ y = some f ∧
        ((((new N d).steps (ids.map Call.fetch)).UnpinPage y b).2.FetchPage x).1 = some f ∧
        PageTable.Find
          ((((new N d).steps (ids.map Call.fetch)).UnpinPage y b).2.FetchPage x).2.page_table_ y
            = none ∧
        PageTable.Find
          ((((new N d).steps (ids.map Call.fetch)).UnpinPage y b).2.FetchPage x).2.page_table_ x
            = some f ∧
        ∀ z ∈ ids, z ≠ y →
          (PageTable.Find ((new N d).steps (ids.map Call.fetch)).page_table_ z).isSome = true ∧
          PageTable.Find
            ((((new N d).steps (ids.map Call.fetch)).UnpinPage y b).2.FetchPage x).2.page_table_ z
              = PageTable.Find ((new N d).steps (ids.map Call.fetch)).page_table_ z) := by
  have hN : (new N d).pool_size_ = N := rfl
  have hndi : ids.Nodup := (List.nodup_append.1 hnd).1
  have hx : x ∉ ids := fun hm => (List.nodup_append.1 hnd).2.2 hm (by simp)
  have hvali : ∀ p ∈ ids, p ≠ INVALID_PAGE_ID := fun p hp => hval p (by simp [hp])
  have hvx : x ≠ INVALID_PAGE_ID := hval x (by simp)
  obtain ⟨L, hps⟩ := loaded_fetches ids [] (new N d) (loaded_new N d)
    (by simpa using hndi) hvali (by rw [hN]; simp [hlen])
  simp only [List.nil_append] at L
  generalize hS : (new N d).steps (ids.map Call.fetch) = S at L hps ⊢
  have H := L.inv
  obtain ⟨hfl, hq⟩ := loaded_full L (by rw [hps, hN]; exact hlen)
  have hmiss : PageTable.Find S.page_table_ x = none := by
    cases h : PageTable.Find S.page_table_ x with
    | none => rfl
    | some f => exact absurd (L.only x f h) hx
  refine ⟨?_, ?_, ?_⟩
  · intro pre p post e
    have hndp : pre.Nodup ∧ p ∉ pre := by
      rw [e] at hndi
      have h1 := List.nodup_append.1 hndi
      exact ⟨h1.1, fun hm => h1.2.2 hm (by simp)⟩
    have hlp : pre.length < N := by
      rw [← hlen, e]; simp
    obtain ⟨L1, hps1⟩ := loaded_fetches pre [] (new N d) (loaded_new N d)
      (by simpa using hndp.1) (fun q hq => hvali q (by rw [e]; simp [hq]))
      (by rw [hN]; simp; omega)
    simp only [List.nil_append] at L1
    exact (loaded_fetch L1 p (hvali p (by rw [e]; simp)) hndp.2 (by rw [hps1, hN]; exact hlp)).1
  · exact fetch_fail S S x hmiss (getFreePage_none S H.wf hfl hq)
  · intro y hy b
    obtain ⟨f, hfy, hpin⟩ := L.pinned y hy
    have hflt := H.table_lt y f hfy
    have hu := unpin_pos S y b f hfy hflt (by omega)
    have HU : Inv (S.UnpinPage y b).2 := inv_unpin H y b
    refine ⟨by rw [hu], f, hfy, ?_⟩
    generalize hU : (S.UnpinPage y b).2 = U at HU
    have hUt : U.page_table_ = S.page_table_ := by rw [← hU, hu]
    have hUf : U.free_list_ = [] := by rw [← hU, hu]; exact hfl
    have hUq : U.replacer_.queue_ = [f] := by
      rw [← hU, hu]
      show (if (S.page f).pin_count_ = 1 then S.replacer_.Insert f else S.replacer_).queue_ = [f]
      rw [if_pos hpin, LRUReplacer.wf_insert_eq H.wf, hq]
      rfl
    have hUm : PageTable.Find U.page_table_ x = none := by rw [hUt]; exact hmiss
    have hg := getFreePage_victim U f [] HU.wf hUf hUq
    have hfe := fetch_miss U _ x f hUm hg
    have h1 : (U.FetchPage x).1 = some f := by rw [hfe]
    obtain ⟨_, _, _, hfind, _, _⟩ := fetch_miss_spec HU hvx hUm h1
    have hid : (U.page f).page_id_ = y := HU.table_id y f (by rw [hUt]; exact hfy)
    have hyx : y ≠ x := fun e => hx (e ▸ hy)
    refine ⟨h1, ?_, ?_, ?_⟩
    · rw [hfind, if_neg hyx, hid, if_pos rfl]
    · rw [hfind, if_pos rfl]
    · intro z hz hzy
      obtain ⟨g, hg1, _⟩ := L.pinned z hz
      have hzx : z ≠ x := fun e => hx (e ▸ hz)
      refine ⟨by rw [hg1]; rfl, ?_⟩
      rw [hfind, if_neg hzx, hid, if_neg hzy, hUt]

theorem exhaustion_witness :
    ([1, 2] : List page_id_t).length = 2 ∧
    ((new 2 DiskManager.blank).steps [Call.fetch 1, Call.fetch 2]).FetchPage 3
      = (none, (new 2 DiskManager.blank).steps [Call.fetch 1, Call.fetch 2]) :=
  ⟨rfl, (exhaustion 2 DiskManager.blank [1, 2] 3 rfl (by decide) (by decide)).2.1⟩

/-- `DeletePage` is its reading part followed, on the same state, by its
mutating part. -/
theorem delete_split (s : BufferPoolManager) (p : page_id_t) :
    s.DeletePage p =
      match s.deleteLookup p with
      | some f => s.deleteMutate p f
      | none => (false, s) := by
  unfold DeletePage deleteLookup deleteMutate
  cases PageTable.Find s.page_table_ p with
  | none => rfl
  | some f =>
    by_cases h : (s.page f).pin_count_ > 0
    · simp only [h, if_true]
    · simp only [h, if_false]

/-- C19 (code at the failing input): `DeletePage` makes no call on `latch_`
while every other public member function locks and unlocks it. On a pool of
one frame holding page 1 unpinned, a `FetchPage(1)` that runs between the
look-up of `DeletePage(1)` and its mutations returns frame 0 with pin count 1,
and `DeletePage(1)` then still returns true, drops page 1 from the page table
and puts frame 0 into the free list. In either order without interleaving,
page 1 ends resident in frame 0 with pin count 1 and the free list empty. -/
theorem delete_unlatched :
    latchCalls (Call.delete 1) = [] ∧
    (∀ c : Call, (∀ p, c ≠ Call.delete p) →
      latchCalls c = [LatchCall.lock, LatchCall.unlock]) ∧
    Reachable unpinnedOnce ∧
    unpinnedOnce.deleteLookup 1 = some 0 ∧
    (unpinnedOnce.FetchPage 1).1 = some 0 ∧
    ((unpinnedOnce.FetchPage 1).2.page 0).pin_count_ = 1 ∧
    ((unpinnedOnce.FetchPage 1).2.deleteMutate 1 0).1 = true ∧
    PageTable.Find ((unpinnedOnce.FetchPage 1).2.deleteMutate 1 0).2.page_table_ 1 = none ∧
    ((unpinnedOnce.FetchPage 1).2.deleteMutate 1 0).2.free_list_ = [0] ∧
    ((unpinnedOnce.DeletePage 1).1 = true ∧
      ((unpinnedOnce.DeletePage 1).2.FetchPage 1).1 = some 0 ∧
      PageTable.Find ((unpinnedOnce.DeletePage 1).2.FetchPage 1).2.page_table_ 1 = some 0 ∧
      (((unpinnedOnce.DeletePage 1).2.FetchPage 1).2.page 0).pin_count_ = 1 ∧
      ((unpinnedOnce.DeletePage 1).2.FetchPage 1).2.free_list_ = []) ∧
    ((unpinnedOnce.FetchPage 1).2.DeletePage 1 = (false, (unpinnedOnce.FetchPage 1).2) ∧
      PageTable.Find (unpinnedOnce.FetchPage 1).2.page_table_ 1 = some 0 ∧
      (unpinnedOnce.FetchPage 1).2.free_list_ = []) := by
  refine ⟨rfl, ?_, ?_, by decide, by decide, by decide, by decide, by decide, by decide,
    ⟨by decide, by decide, by decide, by decide, by decide⟩, ⟨rfl, by decide, by decide⟩⟩
  · intro c hc
    cases c with
    | delete p => exact absurd rfl (hc p)
    | fetch p => rfl
    | unpin p b => rfl
    | flush p => rfl
    | allocate p => rfl
  · exact Reachable.step (Call.unpin 1 false)
      (Reachable.step (Call.fetch 1) (Reachable.init 1 DiskManager.blank) (by decide))
      (by decide)

end BufferPoolManager

end cmudb
